import Mathlib

/-!
Verification of the FullFrame thumbnail-cache core (src/core/thumbnailcache.cpp,
src/core/thumbnailloadthread.cpp, src/core/thumbnailcreator.cpp) against its
natural-language specification.

Modelling conventions:
* `QStr` models `QString` as the list of its character code points
  (e.g. the at sign is code 64, a slash is 47, a dot is 46).
* `QImage` values are modelled by the inductive `Img`; the null image is
  represented by `Option.none` wherever the C++ code tests `isNull()`.
* The thread-safe image tier of `ThumbnailCache` (a `QHash` from key to
  `(QImage, std::list iterator)` plus the `std::list m_imageLRU`) is modelled
  by `Tier`: the hash is an association list with unique keys and the stored
  list iterator is represented by the key of the (unique) LRU node it points
  to; `imageLRU` keeps the front-is-most-recent order of `m_imageLRU`.
* External library calls (MD5 hashing, file mtimes, image decoding, the
  ffmpeg subprocess) are oracles carried in an explicit environment record;
  the repository's own control flow is translated faithfully around them.
-/

/-- A Qt string, as the list of its character code points. -/
abbrev QStr := List Nat

/-- Conversion from a Lean string literal to its code-point list. -/
def qstr (s : String) : QStr := s.data.map Char.toNat

/-- An image key in the caches; `ThumbnailCache` keys are `QString`s. -/
abbrev Key := QStr

/-- Image identifiers stand in for decoded pixel buffers in the cache tier. -/
abbrev ImgId := Nat

/-- Lookup in the association list modelling `QHash::find`. -/
def assocFind (m : List (Key × ImgId)) (k : Key) : Option ImgId :=
  match m with
  | [] => none
  | (k1, v) :: rest => if k1 = k then some v else assocFind rest k

/-- Replace the value stored for an existing key (`it.value().first = image`). -/
def assocReplace (m : List (Key × ImgId)) (k : Key) (v : ImgId) :
    List (Key × ImgId) :=
  match m with
  | [] => []
  | (k1, v1) :: rest =>
      if k1 = k then (k1, v) :: rest else (k1, v1) :: assocReplace rest k v

/-- Remove the (unique) entry for a key, modelling `QHash::remove`. -/
def assocRemove (m : List (Key × ImgId)) (k : Key) : List (Key × ImgId) :=
  match m with
  | [] => []
  | (k1, v1) :: rest =>
      if k1 = k then rest else (k1, v1) :: assocRemove rest k

/-- The thread-safe image tier of `ThumbnailCache`: `m_imageLRU` (front =
most recently used), `m_imageCache`, and `m_maxImages` (a C++ `int`). -/
structure Tier where
  imageLRU : List Key
  imageCache : List (Key × ImgId)
  maxImages : Int
deriving DecidableEq, Repr

/-- The freshly constructed cache: both containers empty, `m_maxImages = 1000`. -/
def initTier : Tier := { imageLRU := [], imageCache := [], maxImages := 1000 }

/-- One iteration bound of the eviction loop in `putImage` /
`evictImagesIfNeeded`: `while (size > m_maxImages && !lru.empty()) {
key = lru.back(); lru.pop_back(); cache.remove(key); }`.  The loop is run
with fuel equal to the initial LRU length: every iteration pops exactly one
LRU node, so the C++ loop can iterate at most that many times. -/
def evictLoopGo : Nat → Tier → Tier
  | 0, t => t
  | n + 1, t =>
      if (t.imageCache.length : Int) > t.maxImages then
        match t.imageLRU.getLast? with
        | some keyToRemove =>
            evictLoopGo n
              { t with imageLRU := t.imageLRU.dropLast,
                       imageCache := assocRemove t.imageCache keyToRemove }
        | none => t
      else t

/-- `ThumbnailCache::evictImagesIfNeeded` (thumbnailcache.cpp:102-111). -/
def evictImagesIfNeeded (t : Tier) : Tier :=
  evictLoopGo t.imageLRU.length t

/-- `ThumbnailCache::retrieveImage` (thumbnailcache.cpp:44-58): on a hit the
LRU node of the key is erased and re-pushed at the front and the stored image
is returned; on a miss the state is unchanged and `nullptr` is returned. -/
def retrieveImage (t : Tier) (k : Key) : Option ImgId × Tier :=
  match assocFind t.imageCache k with
  | some img => (some img, { t with imageLRU := k :: t.imageLRU.erase k })
  | none => (none, t)

/-- `ThumbnailCache::putImage` (thumbnailcache.cpp:60-84): replace-and-move-
to-front on an existing key, otherwise push a new entry at the front and run
the eviction loop. -/
def putImage (t : Tier) (k : Key) (img : ImgId) : Tier :=
  match assocFind t.imageCache k with
  | some _ =>
      { t with imageCache := assocReplace t.imageCache k img,
               imageLRU := k :: t.imageLRU.erase k }
  | none =>
      evictImagesIfNeeded
        { t with imageLRU := k :: t.imageLRU,
                 imageCache := (k, img) :: t.imageCache }

/-- `ThumbnailCache::removeImage` (thumbnailcache.cpp:86-94). -/
def removeImage (t : Tier) (k : Key) : Tier :=
  match assocFind t.imageCache k with
  | some _ =>
      { t with imageLRU := t.imageLRU.erase k,
               imageCache := assocRemove t.imageCache k }
  | none => t

/-- `ThumbnailCache::setImageCacheSize` (thumbnailcache.cpp:187-191):
store the new bound, then `evictImagesIfNeeded`. -/
def setImageCacheSize (t : Tier) (m : Int) : Tier :=
  evictImagesIfNeeded { t with maxImages := m }

/-- The image-tier part of `ThumbnailCache::clearAll` (thumbnailcache.cpp:199-212). -/
def clearAll (t : Tier) : Tier :=
  { imageLRU := [], imageCache := [], maxImages := t.maxImages }

/-- One operation on the image tier of the cache. -/
inductive CacheOp where
  | put (k : Key) (img : ImgId)
  | get (k : Key)
  | remove (k : Key)
  | setSize (m : Int)
  | clear
deriving DecidableEq, Repr

/-- Apply one cache operation to a tier. -/
def applyOp (t : Tier) : CacheOp → Tier
  | .put k img => putImage t k img
  | .get k => (retrieveImage t k).2
  | .remove k => removeImage t k
  | .setSize m => setImageCacheSize t m
  | .clear => clearAll t

/-- Run a sequence of operations from an arbitrary starting tier. -/
def applyOps (t : Tier) (ops : List CacheOp) : Tier := ops.foldl applyOp t

/-- Run a sequence of operations from the freshly constructed cache. -/
def runOps (ops : List CacheOp) : Tier := applyOps initTier ops

/-- Well-formedness of a tier: the LRU list is duplicate-free and the keys of
the hash are a permutation of the LRU nodes (the map/list bijection). -/
def tierWF (t : Tier) : Prop :=
  t.imageLRU.Nodup ∧ (t.imageCache.map Prod.fst).Perm t.imageLRU

/-! ### Association-list lemmas for the hash half of the tier -/

theorem assocFind_isSome_iff (m : List (Key × ImgId)) (k : Key) :
    (assocFind m k).isSome = true ↔ k ∈ m.map Prod.fst := by
  induction m with
  | nil => simp [assocFind]
  | cons p rest ih =>
      obtain ⟨k1, v⟩ := p
      by_cases h : k1 = k
      · subst h; simp [assocFind]
      · simp [assocFind, h, ih, Ne.symm h]

theorem map_fst_assocReplace (m : List (Key × ImgId)) (k : Key) (v : ImgId) :
    (assocReplace m k v).map Prod.fst = m.map Prod.fst := by
  induction m with
  | nil => rfl
  | cons p rest ih =>
      obtain ⟨k1, v1⟩ := p
      by_cases h : k1 = k <;> simp [assocReplace, h, ih]

theorem map_fst_assocRemove (m : List (Key × ImgId)) (k : Key) :
    (assocRemove m k).map Prod.fst = (m.map Prod.fst).erase k := by
  induction m with
  | nil => rfl
  | cons p rest ih =>
      obtain ⟨k1, v1⟩ := p
      by_cases h : k1 = k
      · subst h; simp [assocRemove, List.erase_cons_head]
      · simp [assocRemove, h, ih, List.erase_cons_tail,
          (by simpa using h : ¬ (k1 == k) = true)]

theorem assocRemove_length (m : List (Key × ImgId)) (k : Key)
    (h : k ∈ m.map Prod.fst) : (assocRemove m k).length + 1 = m.length := by
  induction m with
  | nil => simp at h
  | cons p rest ih =>
      obtain ⟨k1, v1⟩ := p
      by_cases hk : k1 = k
      · simp [assocRemove, hk]
      · have : k ∈ rest.map Prod.fst := by
          rcases (by simpa using h) with h1 | h1
          · exact absurd h1.symm hk
          · simpa using h1
        simp [assocRemove, hk, ih this]

/-! ### Eviction-loop lemmas -/

theorem evictLoopGo_max (n : Nat) (t : Tier) :
    (evictLoopGo n t).maxImages = t.maxImages := by
  induction n generalizing t with
  | zero => rfl
  | succ n ih =>
      unfold evictLoopGo
      split
      · split
        · exact ih _
        · rfl
      · rfl

theorem evictLoopGo_lru_append (n : Nat) (t : Tier) :
    ∃ rest, t.imageLRU = (evictLoopGo n t).imageLRU ++ rest := by
  induction n generalizing t with
  | zero => exact ⟨[], by simp [evictLoopGo]⟩
  | succ n ih =>
      unfold evictLoopGo
      split
      · split
        next k hl =>
          obtain ⟨rest, hrest⟩ :=
            ih { t with imageLRU := t.imageLRU.dropLast,
                        imageCache := assocRemove t.imageCache k }
          simp only at hrest
          refine ⟨rest ++ [k], ?_⟩
          rw [← List.append_assoc, ← hrest,
            List.dropLast_append_getLast? k (by simp [hl])]
        next hl => exact ⟨[], by simp⟩
      · exact ⟨[], by simp⟩

theorem assocReplace_length (m : List (Key × ImgId)) (k : Key) (v : ImgId) :
    (assocReplace m k v).length = m.length := by
  induction m with
  | nil => rfl
  | cons p rest ih =>
      obtain ⟨k1, v1⟩ := p
      by_cases h : k1 = k <;> simp [assocReplace, h, ih]


/-- Moving a present key to the front is a permutation: `l` is a
permutation of `k :: l.erase k` whenever `k` is in `l`. -/
theorem perm_cons_erase_key {k : Key} : ∀ {l : List Key}, k ∈ l →
    l.Perm (k :: l.erase k) := by
  intro l h
  induction l with
  | nil => simp at h
  | cons b l ih =>
      by_cases hb : b = k
      · subst hb
        simp [List.erase_cons]
      · have hkl : k ∈ l := by
          rcases List.mem_cons.mp h with h1 | h1
          · exact absurd h1.symm hb
          · exact h1
        rw [List.erase_cons, if_neg (by simpa using hb)]
        exact ((ih hkl).cons b).trans (List.Perm.swap k b (l.erase k))

/-- Erasing the same key on both sides preserves a permutation. -/
theorem perm_erase_key (k : Key) {l1 l2 : List Key} (h : l1.Perm l2) :
    (l1.erase k).Perm (l2.erase k) := by
  induction h with
  | nil => rfl
  | cons a h ih =>
      by_cases ha : a = k
      · subst ha
        simpa [List.erase_cons] using h
      · rw [List.erase_cons, if_neg (by simpa using ha),
          List.erase_cons, if_neg (by simpa using ha)]
        exact ih.cons a
  | swap a b l =>
      by_cases ha : a = k <;> by_cases hb : b = k <;>
        simp [List.erase_cons, ha, hb]
      exact List.Perm.swap a b (l.erase k)
  | trans h1 h2 ih1 ih2 => exact ih1.trans ih2

theorem nodup_erase_key {l : List Key} (k : Key) (h : l.Nodup) :
    (l.erase k).Nodup :=
  h.erase k

theorem mem_of_mem_erase_key {l : List Key} {a k : Key}
    (h : a ∈ l.erase k) : a ∈ l :=
  (List.erase_sublist k l).subset h

/-! ### Equation lemmas for the tier operations -/

theorem retrieveImage_found {t : Tier} {k : Key} {v : ImgId}
    (hf : assocFind t.imageCache k = some v) :
    retrieveImage t k =
      (some v, { t with imageLRU := k :: t.imageLRU.erase k }) := by
  unfold retrieveImage; rw [hf]

theorem retrieveImage_miss {t : Tier} {k : Key}
    (hf : assocFind t.imageCache k = none) :
    retrieveImage t k = (none, t) := by
  unfold retrieveImage; rw [hf]

theorem putImage_found {t : Tier} {k : Key} {img v : ImgId}
    (hf : assocFind t.imageCache k = some v) :
    putImage t k img =
      { t with imageCache := assocReplace t.imageCache k img,
               imageLRU := k :: t.imageLRU.erase k } := by
  unfold putImage; rw [hf]

theorem putImage_new {t : Tier} {k : Key} {img : ImgId}
    (hf : assocFind t.imageCache k = none) :
    putImage t k img =
      evictImagesIfNeeded
        { t with imageLRU := k :: t.imageLRU,
                 imageCache := (k, img) :: t.imageCache } := by
  unfold putImage; rw [hf]

theorem removeImage_found {t : Tier} {k : Key} {v : ImgId}
    (hf : assocFind t.imageCache k = some v) :
    removeImage t k =
      { t with imageLRU := t.imageLRU.erase k,
               imageCache := assocRemove t.imageCache k } := by
  unfold removeImage; rw [hf]

theorem removeImage_miss {t : Tier} {k : Key}
    (hf : assocFind t.imageCache k = none) :
    removeImage t k = t := by
  unfold removeImage; rw [hf]

/-! ### Preservation of the map/list bijection -/

theorem lru_erase_getLast {t : Tier} {k : Key} (hnd : t.imageLRU.Nodup)
    (hl : t.imageLRU.getLast? = some k) :
    t.imageLRU.erase k = t.imageLRU.dropLast := by
  have hsplit : t.imageLRU.dropLast ++ [k] = t.imageLRU :=
    List.dropLast_append_getLast? k (by simp [hl])
  have hnd2 : (t.imageLRU.dropLast ++ [k]).Nodup := by rw [hsplit]; exact hnd
  have hkd : k ∉ t.imageLRU.dropLast := fun hmem =>
    (List.nodup_append.mp hnd2).2.2 hmem (by simp)
  conv_lhs => rw [← hsplit]
  rw [List.erase_append_right _ hkd, List.erase_cons_head, List.append_nil]

/-- One iteration of the eviction loop preserves the bijection. -/
theorem tierWF_evict_step {t : Tier} {k : Key} (h : tierWF t)
    (hl : t.imageLRU.getLast? = some k) :
    tierWF { t with imageLRU := t.imageLRU.dropLast, imageCache := assocRemove t.imageCache k } := by
  have hsplit : t.imageLRU.dropLast ++ [k] = t.imageLRU :=
    List.dropLast_append_getLast? k (by simp [hl])
  have hnd2 : (t.imageLRU.dropLast ++ [k]).Nodup := by
    rw [hsplit]; exact h.1
  refine ⟨(List.nodup_append.mp hnd2).1, ?_⟩
  show ((assocRemove t.imageCache k).map Prod.fst).Perm t.imageLRU.dropLast
  rw [map_fst_assocRemove, ← lru_erase_getLast h.1 hl]
  exact perm_erase_key k h.2

theorem tierWF_evictLoopGo (n : Nat) (t : Tier) (h : tierWF t) :
    tierWF (evictLoopGo n t) := by
  induction n generalizing t with
  | zero => exact h
  | succ n ih =>
      unfold evictLoopGo
      split
      · split
        next k hl => exact ih _ (tierWF_evict_step h hl)
        next hl => exact h
      · exact h

theorem tierWF_push_new (t : Tier) (k : Key) (img : ImgId)
    (hf : assocFind t.imageCache k = none) (h : tierWF t) :
    tierWF { t with imageLRU := k :: t.imageLRU,
                    imageCache := (k, img) :: t.imageCache } := by
  have hk : k ∉ t.imageLRU := by
    intro hmem
    have := (assocFind_isSome_iff t.imageCache k).mpr (h.2.mem_iff.mpr hmem)
    rw [hf] at this; simp at this
  exact ⟨List.Nodup.cons hk h.1, (h.2.cons k)⟩

theorem tierWF_move_front (t : Tier) (k : Key) (hmem : k ∈ t.imageLRU)
    (h : tierWF t) : (k :: t.imageLRU.erase k).Nodup ∧
      t.imageLRU.Perm (k :: t.imageLRU.erase k) := by
  exact ⟨List.Nodup.cons (h.1.not_mem_erase) (nodup_erase_key k h.1),
    perm_cons_erase_key hmem⟩

theorem tierWF_applyOp (t : Tier) (op : CacheOp) (h : tierWF t) :
    tierWF (applyOp t op) := by
  cases op with
  | put k img =>
      show tierWF (putImage t k img)
      cases hf : assocFind t.imageCache k with
      | some v =>
          rw [putImage_found hf]
          have hmem : k ∈ t.imageLRU :=
            h.2.mem_iff.mp ((assocFind_isSome_iff t.imageCache k).mp
              (by rw [hf]; rfl))
          obtain ⟨hnd, hperm⟩ := tierWF_move_front t k hmem h
          refine ⟨hnd, ?_⟩
          show ((assocReplace t.imageCache k img).map Prod.fst).Perm
            (k :: t.imageLRU.erase k)
          rw [map_fst_assocReplace]
          exact h.2.trans hperm
      | none =>
          rw [putImage_new hf]
          exact tierWF_evictLoopGo _ _ (tierWF_push_new t k img hf h)
  | get k =>
      show tierWF (retrieveImage t k).2
      cases hf : assocFind t.imageCache k with
      | some v =>
          rw [retrieveImage_found hf]
          have hmem : k ∈ t.imageLRU :=
            h.2.mem_iff.mp ((assocFind_isSome_iff t.imageCache k).mp
              (by rw [hf]; rfl))
          obtain ⟨hnd, hperm⟩ := tierWF_move_front t k hmem h
          exact ⟨hnd, h.2.trans hperm⟩
      | none => rw [retrieveImage_miss hf]; exact h
  | remove k =>
      show tierWF (removeImage t k)
      cases hf : assocFind t.imageCache k with
      | some v =>
          rw [removeImage_found hf]
          refine ⟨nodup_erase_key k h.1, ?_⟩
          show ((assocRemove t.imageCache k).map Prod.fst).Perm
            (t.imageLRU.erase k)
          rw [map_fst_assocRemove]
          exact perm_erase_key k h.2
      | none => rw [removeImage_miss hf]; exact h
  | setSize m => exact tierWF_evictLoopGo _ _ ⟨h.1, h.2⟩
  | clear => exact ⟨List.nodup_nil, List.Perm.refl []⟩

theorem tierWF_applyOps (t : Tier) (ops : List CacheOp) (h : tierWF t) :
    tierWF (applyOps t ops) := by
  induction ops generalizing t with
  | nil => exact h
  | cons op rest ih => exact ih _ (tierWF_applyOp t op h)

theorem tierWF_runOps (ops : List CacheOp) : tierWF (runOps ops) :=
  tierWF_applyOps initTier ops ⟨List.nodup_nil, List.Perm.refl []⟩

/-! ### Capacity bound -/

theorem tier_count_eq (t : Tier) (h : tierWF t) :
    t.imageCache.length = t.imageLRU.length := by
  have := h.2.length_eq
  simpa using this

theorem evictLoopGo_bound (n : Nat) (t : Tier) (h : tierWF t)
    (hn : t.imageLRU.length ≤ n) (hm : 0 ≤ t.maxImages) :
    ((evictLoopGo n t).imageCache.length : Int) ≤ t.maxImages := by
  induction n generalizing t with
  | zero =>
      have h0 : t.imageLRU.length = 0 := Nat.le_zero.mp hn
      rw [evictLoopGo, tier_count_eq t h, h0]
      exact hm
  | succ n ih =>
      unfold evictLoopGo
      split
      · split
        next k hl =>
            have hsplit : t.imageLRU.dropLast ++ [k] = t.imageLRU :=
              List.dropLast_append_getLast? k (by simp [hl])
            have hlen : t.imageLRU.dropLast.length ≤ n := by
              have : t.imageLRU.length = t.imageLRU.dropLast.length + 1 := by
                conv_lhs => rw [← hsplit]
                simp
              omega
            exact ih _ (tierWF_evict_step h hl) hlen hm
        next hl =>
            have h0 : t.imageLRU = [] := List.getLast?_eq_none_iff.mp hl
            rw [tier_count_eq t h, h0]
            exact hm
      · next hgt => exact le_of_not_lt hgt

/-- The conditional capacity invariant: whenever the configured maximum is
nonnegative, the resident count stays within it. -/
def capOK (t : Tier) : Prop :=
  0 ≤ t.maxImages → (t.imageCache.length : Int) ≤ t.maxImages

theorem capOK_applyOp (t : Tier) (op : CacheOp) (h : tierWF t)
    (hc : capOK t) : capOK (applyOp t op) := by
  cases op with
  | put k img =>
      show capOK (putImage t k img)
      cases hf : assocFind t.imageCache k with
      | some v =>
          rw [putImage_found hf]
          intro hm
          simpa [assocReplace_length] using hc hm
      | none =>
          rw [putImage_new hf]
          intro hm
          rw [evictImagesIfNeeded] at *
          have hmax := evictLoopGo_max
            ((k :: t.imageLRU).length)
            { t with imageLRU := k :: t.imageLRU,
                     imageCache := (k, img) :: t.imageCache }
          simp only at hmax
          rw [hmax] at hm
          have := evictLoopGo_bound ((k :: t.imageLRU).length)
            { t with imageLRU := k :: t.imageLRU,
                     imageCache := (k, img) :: t.imageCache }
            (tierWF_push_new t k img hf h) (le_refl _) hm
          exact le_of_le_of_eq this hmax.symm
  | get k =>
      show capOK (retrieveImage t k).2
      cases hf : assocFind t.imageCache k with
      | some v => rw [retrieveImage_found hf]; exact hc
      | none => rw [retrieveImage_miss hf]; exact hc
  | remove k =>
      show capOK (removeImage t k)
      cases hf : assocFind t.imageCache k with
      | some v =>
          rw [removeImage_found hf]
          intro hm
          have hmem : k ∈ t.imageCache.map Prod.fst :=
            (assocFind_isSome_iff t.imageCache k).mp (by rw [hf]; rfl)
          have hlen := assocRemove_length t.imageCache k hmem
          have := hc hm
          simp only at this ⊢
          omega
      | none => rw [removeImage_miss hf]; exact hc
  | setSize m =>
      show capOK (setImageCacheSize t m)
      rw [setImageCacheSize, evictImagesIfNeeded]
      intro hm
      have hmax := evictLoopGo_max t.imageLRU.length
        { t with maxImages := m }
      simp only at hmax
      rw [hmax] at hm
      have := evictLoopGo_bound t.imageLRU.length { t with maxImages := m }
        ⟨h.1, h.2⟩ (le_refl _) hm
      exact le_of_le_of_eq this hmax.symm
  | clear =>
      intro hm
      simpa [applyOp, clearAll] using hm

theorem capOK_applyOps (t : Tier) (ops : List CacheOp) (h : tierWF t)
    (hc : capOK t) : capOK (applyOps t ops) := by
  induction ops generalizing t with
  | nil => exact hc
  | cons op rest ih =>
      exact ih _ (tierWF_applyOp t op h) (capOK_applyOp t op h hc)

theorem capOK_runOps (ops : List CacheOp) : capOK (runOps ops) :=
  capOK_applyOps initTier ops ⟨List.nodup_nil, List.Perm.refl []⟩
    (by intro hm; simp [initTier])

/-! ### Recency: the operation index that last touched a key

A key is "touched" by an operation exactly when the operation moves its LRU
node to the front: a `put` of that key, or a `get` of that key that hits. -/

def touches (t : Tier) (op : CacheOp) (k : Key) : Bool :=
  match op with
  | .put k1 _ => decide (k1 = k)
  | .get k1 => decide (k1 = k) && (assocFind t.imageCache k).isSome
  | _ => false

/-- Index (into the operation sequence) of the last operation touching `k`,
threading the evolving tier state; `⊥` when no operation touches `k`. -/
def lastTouchAux : List CacheOp → Tier → Nat → Key → WithBot Nat
  | [], _, _, _ => ⊥
  | op :: rest, t, i, k =>
      max (if touches t op k then ((i : Nat) : WithBot Nat) else ⊥)
        (lastTouchAux rest (applyOp t op) (i + 1) k)

/-- The index of the last operation of `ops` (run from the fresh cache) that
touched `k`; `⊥` if none did. -/
def lastTouch (ops : List CacheOp) (k : Key) : WithBot Nat :=
  lastTouchAux ops initTier 0 k

theorem runOps_append (l : List CacheOp) (op : CacheOp) :
    runOps (l ++ [op]) = applyOp (runOps l) op := by
  simp [runOps, applyOps, List.foldl_append]

theorem applyOps_cons (t : Tier) (a : CacheOp) (l : List CacheOp) :
    applyOps t (a :: l) = applyOps (applyOp t a) l := by
  simp [applyOps]

theorem lastTouchAux_append (l : List CacheOp) (op : CacheOp) (t : Tier)
    (i : Nat) (k : Key) :
    lastTouchAux (l ++ [op]) t i k =
      max (lastTouchAux l t i k)
        (if touches (applyOps t l) op k
         then (((i + l.length : Nat)) : WithBot Nat) else ⊥) := by
  induction l generalizing t i with
  | nil =>
      simp [lastTouchAux, applyOps, max_comm]
  | cons a l ih =>
      simp only [List.cons_append, lastTouchAux, List.append_eq, ih,
        applyOps_cons]
      rw [show i + (a :: l).length = (i + 1) + l.length by
        simp only [List.length_cons]; omega]
      rw [max_assoc]

theorem lastTouchAux_lt (l : List CacheOp) (t : Tier) (i : Nat) (k : Key) :
    lastTouchAux l t i k < (((i + l.length : Nat)) : WithBot Nat) := by
  induction l generalizing t i with
  | nil =>
      simp only [lastTouchAux, List.length_nil, Nat.add_zero]
      exact WithBot.bot_lt_coe i
  | cons a l ih =>
      simp only [lastTouchAux]
      apply max_lt
      · split
        · exact WithBot.coe_lt_coe.mpr (by simp)
        · exact WithBot.bot_lt_coe _
      · rw [show i + (a :: l).length = (i + 1) + l.length by
          simp only [List.length_cons]; omega]
        exact ih (applyOp t a) (i + 1)

theorem lastTouch_lt (ops : List CacheOp) (k : Key) :
    lastTouch ops k < ((ops.length : Nat) : WithBot Nat) := by
  simpa [lastTouch] using lastTouchAux_lt ops initTier 0 k

theorem lastTouch_append_touch {l : List CacheOp} {op : CacheOp} {k : Key}
    (h : touches (runOps l) op k = true) :
    lastTouch (l ++ [op]) k = ((l.length : Nat) : WithBot Nat) := by
  have := lastTouchAux_append l op initTier 0 k
  rw [lastTouch, this]
  show max (lastTouch l k) _ = _
  rw [if_pos (by simpa [runOps] using h)]
  simpa using max_eq_right (le_of_lt (lastTouch_lt l k))

theorem lastTouch_append_not_touch {l : List CacheOp} {op : CacheOp}
    {k : Key} (h : touches (runOps l) op k = false) :
    lastTouch (l ++ [op]) k = lastTouch l k := by
  have := lastTouchAux_append l op initTier 0 k
  rw [lastTouch, this]
  show max (lastTouch l k) _ = _
  rw [if_neg (by simp [runOps] at h ⊢; simp [h])]
  exact max_eq_left bot_le

theorem ne_of_mem_erase_key {l : List Key} {b k : Key} (hnd : l.Nodup)
    (hb : b ∈ l.erase k) : b ≠ k := by
  intro h; subst h; exact hnd.not_mem_erase hb

/-- Lifting the pairwise recency ordering along an appended operation that
touches none of the listed keys. -/
theorem pairwise_upgrade {l : List CacheOp} {op : CacheOp} {ks : List Key}
    (hks : ks.Pairwise (fun a b => lastTouch l b < lastTouch l a))
    (hnt : ∀ x ∈ ks, touches (runOps l) op x = false) :
    ks.Pairwise
      (fun a b => lastTouch (l ++ [op]) b < lastTouch (l ++ [op]) a) := by
  refine List.Pairwise.imp_of_mem ?_ hks
  intro a b ha hb hab
  rw [lastTouch_append_not_touch (hnt a ha),
    lastTouch_append_not_touch (hnt b hb)]
  exact hab

/-- An appended operation that touches `k` but none of `ks` puts `k` strictly
above all of `ks` in the recency ordering. -/
theorem pairwise_cons_front {l : List CacheOp} {op : CacheOp} {k : Key}
    {ks : List Key} (htouch : touches (runOps l) op k = true)
    (hnt : ∀ x ∈ ks, touches (runOps l) op x = false)
    (hks : ks.Pairwise (fun a b => lastTouch l b < lastTouch l a)) :
    (k :: ks).Pairwise
      (fun a b => lastTouch (l ++ [op]) b < lastTouch (l ++ [op]) a) := by
  refine List.pairwise_cons.mpr ⟨?_, pairwise_upgrade hks hnt⟩
  intro b hb
  rw [lastTouch_append_touch htouch, lastTouch_append_not_touch (hnt b hb)]
  exact lastTouch_lt l b

/-- The eviction loop only removes LRU nodes; the surviving list is a
sublist of the original. -/
theorem evictLoopGo_lru_sublist (n : Nat) (t : Tier) :
    (evictLoopGo n t).imageLRU.Sublist t.imageLRU := by
  induction n generalizing t with
  | zero => exact List.Sublist.refl _
  | succ n ih =>
      unfold evictLoopGo
      split
      · split
        next k hl => exact (ih _).trans (List.dropLast_sublist _)
        next hl => exact List.Sublist.refl _
      · exact List.Sublist.refl _

theorem evictImagesIfNeeded_lru_sublist (t : Tier) :
    (evictImagesIfNeeded t).imageLRU.Sublist t.imageLRU :=
  evictLoopGo_lru_sublist t.imageLRU.length t

/-- The central LRU ordering invariant: after any operation sequence, the
LRU list is strictly sorted by decreasing last-touch index — the front is
the most recently touched key and the back the least recently touched. -/
theorem lru_recency_sorted (ops : List CacheOp) :
    (runOps ops).imageLRU.Pairwise
      (fun a b => lastTouch ops b < lastTouch ops a) := by
  induction ops using List.reverseRecOn with
  | nil => simp [runOps, applyOps, initTier]
  | append_singleton l op ih =>
      have hwf := tierWF_runOps l
      rw [runOps_append]
      cases op with
      | put k img =>
          show ((putImage (runOps l) k img).imageLRU).Pairwise _
          cases hf : assocFind (runOps l).imageCache k with
          | some v =>
              rw [putImage_found hf]
              exact pairwise_cons_front (by simp [touches])
                (fun x hx => by
                  simp [touches, Ne.symm (ne_of_mem_erase_key hwf.1 hx)])
                (ih.sublist (List.erase_sublist k _))
          | none =>
              rw [putImage_new hf]
              have hknotin : k ∉ (runOps l).imageLRU := by
                intro hmem
                have := (assocFind_isSome_iff _ k).mpr
                  (hwf.2.mem_iff.mpr hmem)
                rw [hf] at this; simp at this
              have hpre :
                  (k :: (runOps l).imageLRU).Pairwise
                    (fun a b =>
                      lastTouch (l ++ [CacheOp.put k img]) b <
                        lastTouch (l ++ [CacheOp.put k img]) a) :=
                pairwise_cons_front (by simp [touches])
                  (fun x hx => by
                    simp [touches,
                      (show ¬ k = x from fun h => hknotin (h ▸ hx))])
                  ih
              exact hpre.sublist (evictImagesIfNeeded_lru_sublist _)
      | get k =>
          show ((retrieveImage (runOps l) k).2.imageLRU).Pairwise _
          cases hf : assocFind (runOps l).imageCache k with
          | some v =>
              rw [retrieveImage_found hf]
              exact pairwise_cons_front (by simp [touches, hf])
                (fun x hx => by
                  simp [touches, Ne.symm (ne_of_mem_erase_key hwf.1 hx)])
                (ih.sublist (List.erase_sublist k _))
          | none =>
              rw [retrieveImage_miss hf]
              refine pairwise_upgrade ih ?_
              intro x hx
              by_cases hxk : x = k
              · subst hxk; simp [touches, hf]
              · simp [touches, Ne.symm hxk]
      | remove k =>
          show ((removeImage (runOps l) k).imageLRU).Pairwise _
          cases hf : assocFind (runOps l).imageCache k with
          | some v =>
              rw [removeImage_found hf]
              exact pairwise_upgrade (ih.sublist (List.erase_sublist k _))
                (fun x hx => rfl)
          | none =>
              rw [removeImage_miss hf]
              exact pairwise_upgrade ih (fun x hx => rfl)
      | setSize m =>
          show ((setImageCacheSize (runOps l) m).imageLRU).Pairwise _
          rw [setImageCacheSize]
          refine (pairwise_upgrade ih ?_).sublist
            (evictImagesIfNeeded_lru_sublist _)
          intro x hx
          rfl
      | clear =>
          show ((clearAll (runOps l)).imageLRU).Pairwise _
          exact List.Pairwise.nil

/-- On a miss, `putImage` pushes the new key at the front and then only pops
from the back: the resulting LRU list is a prefix of `k ::` the old list. -/
theorem putImage_new_decomp {t : Tier} {k : Key} {img : ImgId}
    (hf : assocFind t.imageCache k = none) :
    ∃ rest, k :: t.imageLRU = (putImage t k img).imageLRU ++ rest := by
  rw [putImage_new hf]
  unfold evictImagesIfNeeded
  exact evictLoopGo_lru_append (({ t with imageLRU := k :: t.imageLRU, imageCache := (k, img) :: t.imageCache } : Tier).imageLRU.length) { t with imageLRU := k :: t.imageLRU, imageCache := (k, img) :: t.imageCache }

/-- C1: for every sequence of put and get operations on a single cache tier,
once an insertion makes the tier exceed its configured capacity, every key
evicted by the insertion was touched less recently than every key that stays
resident (other than the inserted key itself); in particular, with capacity
2, put(A), put(B), get(A), put(C) evicts B and leaves exactly C and A
resident. -/
theorem c1_lru_eviction :
    (∀ (ops : List CacheOp) (k : Key) (img : ImgId) (e r : Key),
        e ∈ (runOps ops).imageLRU →
        e ∉ (putImage (runOps ops) k img).imageLRU →
        r ∈ (putImage (runOps ops) k img).imageLRU → r ≠ k →
        lastTouch ops e < lastTouch ops r) ∧
      (runOps [CacheOp.setSize 2, CacheOp.put (qstr "A") 1,
          CacheOp.put (qstr "B") 2, CacheOp.get (qstr "A"),
          CacheOp.put (qstr "C") 3]).imageLRU = [qstr "C", qstr "A"] ∧
      assocFind (runOps [CacheOp.setSize 2, CacheOp.put (qstr "A") 1,
          CacheOp.put (qstr "B") 2, CacheOp.get (qstr "A"),
          CacheOp.put (qstr "C") 3]).imageCache (qstr "B") = none := by
  refine ⟨?_, by decide, by decide⟩
  intro ops k img e r he hne hr hrk
  have hwf := tierWF_runOps ops
  have hsorted := lru_recency_sorted ops
  cases hf : assocFind (runOps ops).imageCache k with
  | some v =>
      rw [putImage_found hf] at hne
      exfalso
      apply hne
      by_cases hek : e = k
      · exact hek ▸ List.mem_cons_self _ _
      · exact List.mem_cons_of_mem _ ((List.mem_erase_of_ne hek).mpr he)
  | none =>
      obtain ⟨rest, hrest⟩ := @putImage_new_decomp (runOps ops) k img hf
      cases hL : (putImage (runOps ops) k img).imageLRU with
      | nil => rw [hL] at hr; simp at hr
      | cons k0 L1 =>
          rw [hL] at hrest hr hne
          obtain ⟨hk0, hlru⟩ := List.cons.inj hrest
          rw [List.append_eq] at hlru
          have hrL : r ∈ L1 := by
            rcases List.mem_cons.mp hr with h | h
            · exact absurd (h.trans hk0.symm) hrk
            · exact h
          have heR : e ∈ rest := by
            have hsplit : e ∈ L1 ++ rest := hlru ▸ he
            rcases List.mem_append.mp hsplit with h | h
            · exact absurd (List.mem_cons_of_mem k0 h) hne
            · exact h
          have hs : (L1 ++ rest).Pairwise
              (fun a b => lastTouch ops b < lastTouch ops a) :=
            hlru ▸ hsorted
          exact (List.pairwise_append.mp hs).2.2 r hrL e heR

/-- Witness for C1: in the capacity-2 scenario, the evicted key B was indeed
touched less recently than the surviving key A. -/
theorem c1_lru_eviction_witness :
    lastTouch [CacheOp.setSize 2, CacheOp.put (qstr "A") 1,
        CacheOp.put (qstr "B") 2, CacheOp.get (qstr "A")] (qstr "B") <
      lastTouch [CacheOp.setSize 2, CacheOp.put (qstr "A") 1,
        CacheOp.put (qstr "B") 2, CacheOp.get (qstr "A")] (qstr "A") :=
  c1_lru_eviction.1
    [CacheOp.setSize 2, CacheOp.put (qstr "A") 1,
      CacheOp.put (qstr "B") 2, CacheOp.get (qstr "A")]
    (qstr "C") 3 (qstr "B") (qstr "A")
    (by decide) (by decide) (by decide) (by decide)

/-- C2 (amended): after every operation sequence the key-to-entry map and
the LRU list are in bijection — membership agrees, both are duplicate-free,
and the counts coincide — and the resident count stays within the configured
maximum whenever that maximum is nonnegative. -/
theorem c2_bijection_and_capacity (ops : List CacheOp) :
    (∀ k : Key, (assocFind (runOps ops).imageCache k).isSome = true ↔
        k ∈ (runOps ops).imageLRU) ∧
    (runOps ops).imageLRU.Nodup ∧
    ((runOps ops).imageCache.map Prod.fst).Nodup ∧
    (runOps ops).imageCache.length = (runOps ops).imageLRU.length ∧
    (0 ≤ (runOps ops).maxImages →
      ((runOps ops).imageCache.length : Int) ≤ (runOps ops).maxImages) := by
  have hwf := tierWF_runOps ops
  exact ⟨fun k => (assocFind_isSome_iff _ k).trans hwf.2.mem_iff,
    hwf.1, hwf.2.symm.nodup hwf.1, tier_count_eq _ hwf, capOK_runOps ops⟩

/-- Witness for C2 (amended), instantiated after put(A), put(B), get(A):
the key B is both in the map and in the LRU list, and the count respects
the (default, nonnegative) maximum. -/
theorem c2_bijection_and_capacity_witness :
    ((assocFind (runOps [CacheOp.put (qstr "A") 1, CacheOp.put (qstr "B") 2,
        CacheOp.get (qstr "A")]).imageCache (qstr "B")).isSome = true ↔
      qstr "B" ∈ (runOps [CacheOp.put (qstr "A") 1, CacheOp.put (qstr "B") 2,
        CacheOp.get (qstr "A")]).imageLRU) ∧
    ((runOps [CacheOp.put (qstr "A") 1, CacheOp.put (qstr "B") 2,
        CacheOp.get (qstr "A")]).imageCache.length : Int) ≤
      (runOps [CacheOp.put (qstr "A") 1, CacheOp.put (qstr "B") 2,
        CacheOp.get (qstr "A")]).maxImages :=
  ⟨(c2_bijection_and_capacity [CacheOp.put (qstr "A") 1,
      CacheOp.put (qstr "B") 2, CacheOp.get (qstr "A")]).1 (qstr "B"),
    (c2_bijection_and_capacity [CacheOp.put (qstr "A") 1,
      CacheOp.put (qstr "B") 2, CacheOp.get (qstr "A")]).2.2.2.2 (by decide)⟩

/-- Counterexample to C2 as stated: after configuring a negative maximum
(`setImageCacheSize(-1)`, a legal `int` argument), the resident count 0
exceeds the configured maximum -1. -/
theorem c2_capacity_counterexample :
    ¬ (((runOps [CacheOp.setSize (-1)]).imageCache.length : Int) ≤
        (runOps [CacheOp.setSize (-1)]).maxImages) := by decide

/-! ### Shrinking the capacity (C9) -/

theorem evictLoopGo_noop (n : Nat) (t : Tier)
    (h : ¬ ((t.imageCache.length : Int) > t.maxImages)) :
    evictLoopGo n t = t := by
  cases n with
  | zero => rfl
  | succ n => unfold evictLoopGo; rw [if_neg h]

/-- When the bound is between 0 and the resident count, the eviction loop
stops exactly at the bound, keeping the most-recent prefix of the LRU
list. -/
theorem evictLoopGo_take (n : Nat) (t : Tier) (h : tierWF t)
    (hn : t.imageLRU.length ≤ n) (hm : 0 ≤ t.maxImages)
    (hle : t.maxImages ≤ (t.imageCache.length : Int)) :
    (evictLoopGo n t).imageLRU = t.imageLRU.take t.maxImages.toNat ∧
    ((evictLoopGo n t).imageCache.length : Int) = t.maxImages := by
  induction n generalizing t with
  | zero =>
      have hlen0 : t.imageLRU.length = 0 := Nat.le_zero.mp hn
      have hcnt : t.imageCache.length = 0 := by rw [tier_count_eq t h, hlen0]
      have hmax0 : t.maxImages = 0 := by omega
      rw [evictLoopGo]
      constructor
      · rw [hmax0]
        simp only [Int.toNat_zero, List.take_zero]
        exact List.eq_nil_of_length_eq_zero hlen0
      · rw [hcnt, hmax0]
        rfl
  | succ n ih =>
      unfold evictLoopGo
      split
      · split
        next k hl =>
            have hsplit : t.imageLRU.dropLast ++ [k] = t.imageLRU :=
              List.dropLast_append_getLast? k (by simp [hl])
            have hkmem : k ∈ t.imageLRU := by
              rw [← hsplit]; exact List.mem_append_right _ (by simp)
            have hkmap : k ∈ t.imageCache.map Prod.fst :=
              h.2.mem_iff.mpr hkmem
            have hremlen := assocRemove_length t.imageCache k hkmap
            have hlru_len : t.imageLRU.length = t.imageLRU.dropLast.length + 1 := by
              conv_lhs => rw [← hsplit]
              simp
            next hgt =>
              have hcnt := tier_count_eq t h
              obtain ⟨ih1, ih2⟩ := ih
                { t with imageLRU := t.imageLRU.dropLast,
                         imageCache := assocRemove t.imageCache k }
                (tierWF_evict_step h hl) (by simp only; omega)
                (by simp only; omega) (by simp only; omega)
              simp only at ih1 ih2
              refine ⟨?_, ih2⟩
              rw [ih1, List.dropLast_eq_take, List.take_take]
              congr 1
              omega
        next hl =>
            next hgt =>
              exfalso
              have h0 : t.imageLRU = [] := List.getLast?_eq_none_iff.mp hl
              have : t.imageCache.length = 0 := by
                rw [tier_count_eq t h, h0]; rfl
              omega
      · next hgt =>
          have heq : (t.imageCache.length : Int) = t.maxImages :=
            le_antisymm (le_of_not_lt hgt) hle
          have htk : t.maxImages.toNat = t.imageLRU.length := by
            have := tier_count_eq t h
            omega
          rw [htk, List.take_length]
          exact ⟨rfl, heq⟩

/-- C9 (amended): setting the maximum to `m` with `0 ≤ m ≤ count` evicts
from the LRU tail until exactly `m` entries remain (the surviving keys are
the most-recent prefix); setting it at or above the resident count changes
neither container. -/
theorem c9_set_capacity (ops : List CacheOp) (m : Int) :
    (0 ≤ m → m ≤ ((runOps ops).imageCache.length : Int) →
      (setImageCacheSize (runOps ops) m).imageLRU =
        (runOps ops).imageLRU.take m.toNat ∧
      ((setImageCacheSize (runOps ops) m).imageCache.length : Int) = m) ∧
    (((runOps ops).imageCache.length : Int) ≤ m →
      (setImageCacheSize (runOps ops) m).imageLRU =
        (runOps ops).imageLRU ∧
      (setImageCacheSize (runOps ops) m).imageCache =
        (runOps ops).imageCache ∧
      (setImageCacheSize (runOps ops) m).maxImages = m) := by
  have hwf := tierWF_runOps ops
  constructor
  · intro hm hle
    rw [setImageCacheSize]
    unfold evictImagesIfNeeded
    exact evictLoopGo_take _ _ ⟨hwf.1, hwf.2⟩ (le_refl _) hm hle
  · intro hle
    rw [setImageCacheSize]
    unfold evictImagesIfNeeded
    rw [evictLoopGo_noop _ _ (by simp only; omega)]
    exact ⟨rfl, rfl, rfl⟩

/-- Witness for C9 (amended): with keys A and B resident (LRU front B),
shrinking the maximum to 1 keeps exactly the most recent key. -/
theorem c9_set_capacity_witness :
    (setImageCacheSize
        (runOps [CacheOp.put (qstr "A") 1, CacheOp.put (qstr "B") 2])
        1).imageLRU =
      (runOps [CacheOp.put (qstr "A") 1,
        CacheOp.put (qstr "B") 2]).imageLRU.take ((1 : Int)).toNat ∧
    ((setImageCacheSize
        (runOps [CacheOp.put (qstr "A") 1, CacheOp.put (qstr "B") 2])
        1).imageCache.length : Int) = 1 :=
  (c9_set_capacity [CacheOp.put (qstr "A") 1, CacheOp.put (qstr "B") 2]
    1).1 (by decide) (by decide)

/-- Counterexample to C9 as stated: setting the maximum to the (legal
`int`) value -1 while one key is resident evicts everything, yet the
resident count 0 is still not within the new bound. -/
theorem c9_negative_counterexample :
    ¬ (((setImageCacheSize (runOps [CacheOp.put (qstr "A") 1])
          (-1)).imageCache.length : Int) ≤ -1) := by decide

/-! ### Cache keys: `ThumbnailInfo::makeCacheKey` (thumbnailcreator.h:41-43)

`QString("%1@%2").arg(path).arg(size)` appends the at sign (code 64) and the
decimal rendering of the size to the path. Sizes are the nonnegative `int`
values the program uses. -/

/-- Little-endian decimal digits (as code points) of a natural number,
computed structurally with a fuel bound so that concrete keys evaluate
inside the kernel. -/
def natDecimalAux : Nat → Nat → QStr
  | 0, _ => []
  | _ + 1, 0 => []
  | fuel + 1, n + 1 => (48 + (n + 1) % 10) :: natDecimalAux fuel ((n + 1) / 10)

/-- Decimal digit string (as code points) of a natural number, most
significant digit first; `0` renders as `"0"`. -/
def natDecimal (n : Nat) : QStr :=
  if n = 0 then [48] else (natDecimalAux n n).reverse

theorem natDecimalAux_eq_digits :
    ∀ (fuel n : Nat), n ≤ fuel →
      natDecimalAux fuel n = (Nat.digits 10 n).map (fun d => 48 + d) := by
  intro fuel
  induction fuel with
  | zero =>
      intro n hn
      have h0 : n = 0 := Nat.le_zero.mp hn
      subst h0
      simp [natDecimalAux]
  | succ fuel ih =>
      intro n hn
      cases n with
      | zero => simp [natDecimalAux]
      | succ m =>
          rw [natDecimalAux,
            Nat.digits_def' (by norm_num : (1:Nat) < 10) (Nat.succ_pos m)]
          simp only [List.map_cons]
          congr 1
          exact ih _ (by
            have := Nat.div_lt_self (Nat.succ_pos m)
              (by norm_num : (1:Nat) < 10)
            omega)

/-- The structural digit string agrees with the `Nat.digits`-based
rendering. -/
theorem natDecimal_eq (n : Nat) :
    natDecimal n =
      if n = 0 then [48]
      else (Nat.digits 10 n).reverse.map (fun d => 48 + d) := by
  unfold natDecimal
  split
  · rfl
  · rw [natDecimalAux_eq_digits n n (le_refl n), List.map_reverse]

/-- Is the code point an ASCII decimal digit (`QChar::digitValue`,
restricted to ASCII)? -/
def isDigitCode (c : Nat) : Bool := 48 ≤ c && c ≤ 57

/-- One lexical element of a `QString::arg` scan: a literal character, or a
place marker carrying its number and its source text. -/
inductive ArgTok where
  | ch (c : Nat)
  | marker (n : Nat) (src : QStr)
deriving DecidableEq, Repr

/-- The place-marker scan of `QString::arg` (`findArgEscapes` /
`replaceArgEscapes` in Qt's qstring.cpp): a marker is `%` followed by one
or two digits, optionally with an `L` locale flag before the digits; at a
`%` not followed by (an optional `L` and) a digit, the characters are
literal and scanning resumes at the next character. -/
def argTokens : QStr → List ArgTok
  | [] => []
  | c :: rest =>
      if c ≠ 37 then .ch c :: argTokens rest
      else
        match rest with
        | [] => [.ch 37]
        | c1 :: rest1 =>
            if c1 = 76 then
              match rest1 with
              | [] => [.ch 37, .ch 76]
              | c2 :: rest2 =>
                  if isDigitCode c2 then
                    match rest2 with
                    | [] => [.marker (c2 - 48) [37, 76, c2]]
                    | c3 :: rest3 =>
                        if isDigitCode c3 then
                          .marker (10 * (c2 - 48) + (c3 - 48))
                              [37, 76, c2, c3] :: argTokens rest3
                        else
                          .marker (c2 - 48) [37, 76, c2] ::
                            argTokens (c3 :: rest3)
                  else .ch 37 :: .ch 76 :: argTokens (c2 :: rest2)
            else
              if isDigitCode c1 then
                match rest1 with
                | [] => [.marker (c1 - 48) [37, c1]]
                | c2 :: rest2 =>
                    if isDigitCode c2 then
                      .marker (10 * (c1 - 48) + (c2 - 48)) [37, c1, c2] ::
                        argTokens rest2
                    else .marker (c1 - 48) [37, c1] :: argTokens (c2 :: rest2)
              else .ch 37 :: argTokens (c1 :: rest1)

/-- The lowest marker number occurring in a token list, if any. -/
def minMarker : List ArgTok → Option Nat
  | [] => none
  | .ch _ :: ts => minMarker ts
  | .marker n _ :: ts =>
      match minMarker ts with
      | none => some n
      | some m => some (min n m)

/-- Substitute the argument for every occurrence of marker `m`; all other
tokens keep their source text. -/
def renderTokens (m : Nat) (a : QStr) : List ArgTok → QStr
  | [] => []
  | .ch c :: ts => c :: renderTokens m a ts
  | .marker n src :: ts => (if n = m then a else src) ++ renderTokens m a ts

/-- `QString::arg(a)`: replace every occurrence of the lowest-numbered
place marker with `a`; with no marker present, Qt warns and returns the
string unchanged. (The locale flag is parsed but, as in the C locale, does
not alter the substituted text.) -/
def argSubst (s : QStr) (a : QStr) : QStr :=
  match minMarker (argTokens s) with
  | none => s
  | some m => renderTokens m a (argTokens s)

/-- `ThumbnailInfo::makeCacheKey`:
`QString("%1@%2").arg(path).arg(size)` with `QString::arg`'s chained
place-marker substitution — a path that itself contains place markers is
substituted into. -/
def makeCacheKey (path : QStr) (size : Nat) : QStr :=
  argSubst (argSubst (qstr "%1@%2") path) (natDecimal size)

/-- A string free of `QString::arg` place markers: no `%` directly
followed by a digit and no `%L` followed by a digit, at any position. -/
def markerFree : QStr → Bool
  | [] => true
  | c :: rest =>
      if c = 37 then
        match rest with
        | [] => true
        | c1 :: rest1 =>
            if c1 = 76 then
              match rest1 with
              | [] => true
              | c2 :: _ => !isDigitCode c2 && markerFree rest
            else !isDigitCode c1 && markerFree rest
      else markerFree rest

theorem natDecimal_lt_64 (n : Nat) : ∀ c ∈ natDecimal n, c < 64 := by
  intro c hc
  rw [natDecimal_eq] at hc
  split at hc
  · simp at hc; omega
  · obtain ⟨d, hd, hdc⟩ := List.mem_map.mp hc
    have : d < 10 := Nat.digits_lt_base (by norm_num)
      (List.mem_reverse.mp hd)
    omega

theorem digits_str_ne_zero_str {b : Nat} (hb : b ≠ 0) :
    (Nat.digits 10 b).reverse.map (fun d => 48 + d) ≠ [48] := by
  intro h1
  have h2 : (Nat.digits 10 b).reverse = [0] := by
    cases hrev : (Nat.digits 10 b).reverse with
    | nil => rw [hrev] at h1; simp at h1
    | cons d rest =>
        rw [hrev] at h1
        simp only [List.map_cons] at h1
        obtain ⟨hd, hrest⟩ := List.cons.inj h1
        have hd0 : d = 0 := by omega
        subst hd0
        rw [List.map_eq_nil_iff.mp hrest]
  have h3 : Nat.digits 10 b = [0] := by
    have := congrArg List.reverse h2
    simpa using this
  have h4 := congrArg (Nat.ofDigits 10) h3
  rw [Nat.ofDigits_digits] at h4
  simp [Nat.ofDigits_cons, Nat.ofDigits_nil] at h4
  exact hb (by exact_mod_cast h4)

theorem natDecimal_injective : Function.Injective natDecimal := by
  intro a b hab
  rw [natDecimal_eq, natDecimal_eq] at hab
  by_cases ha : a = 0 <;> by_cases hb : b = 0
  · omega
  · rw [if_pos ha, if_neg hb] at hab
    exact absurd hab.symm (digits_str_ne_zero_str hb)
  · rw [if_neg ha, if_pos hb] at hab
    exact absurd hab (digits_str_ne_zero_str ha)
  · rw [if_neg ha, if_neg hb] at hab
    have hinj : (Nat.digits 10 a).reverse = (Nat.digits 10 b).reverse := by
      have hf : Function.Injective (fun d : Nat => 48 + d) := fun x y h => by
        simpa using h
      exact List.map_injective_iff.mpr hf hab
    have hdig : Nat.digits 10 a = Nat.digits 10 b := by
      have := congrArg List.reverse hinj
      simpa using this
    have := congrArg (Nat.ofDigits 10) hdig
    rwa [Nat.ofDigits_digits, Nat.ofDigits_digits] at this

/-- Stripping a `%` whose successor keeps it from being a marker. -/
theorem markerFree_of_cons {c : Nat} {rest : QStr} (hc : ¬ c = 37)
    (h : markerFree (c :: rest) = true) : markerFree rest = true := by
  unfold markerFree at h
  rwa [if_neg hc] at h

theorem markerFree_percent_L {c2 : Nat} {r : QStr}
    (h : markerFree (37 :: 76 :: c2 :: r) = true) :
    isDigitCode c2 = false ∧ markerFree (c2 :: r) = true := by
  have h' : (!isDigitCode c2 && markerFree (76 :: c2 :: r)) = true := h
  rw [Bool.and_eq_true, Bool.not_eq_true'] at h'
  exact ⟨h'.1, markerFree_of_cons (by omega) h'.2⟩

theorem markerFree_percent {c1 : Nat} {r : QStr} (hL : ¬ c1 = 76)
    (h : markerFree (37 :: c1 :: r) = true) :
    isDigitCode c1 = false ∧ markerFree (c1 :: r) = true := by
  unfold markerFree at h
  rw [if_pos rfl] at h
  simp only [if_neg hL, Bool.and_eq_true, Bool.not_eq_true'] at h
  exact h

/-- `.arg(path)` on the template `"%1@%2"` substitutes the path for `%1`
and leaves `"@%2"` behind. -/
theorem argSubst_template (path : QStr) :
    argSubst (qstr "%1@%2") path = path ++ [64, 37, 50] := rfl

theorem minMarker_ch_append (l : List Nat) (ts : List ArgTok) :
    minMarker (l.map ArgTok.ch ++ ts) = minMarker ts := by
  induction l with
  | nil => rfl
  | cons c l ih => simpa [minMarker] using ih

theorem renderTokens_ch_append (m : Nat) (a : QStr) (l : List Nat)
    (ts : List ArgTok) :
    renderTokens m a (l.map ArgTok.ch ++ ts) = l ++ renderTokens m a ts := by
  induction l with
  | nil => rfl
  | cons c l ih => simpa [renderTokens] using ih

/-- A marker-free string followed by `"@%2"` tokenizes to its characters
followed by the `@` character and the `%2` marker. -/
theorem argTokens_mf_append_aux :
    ∀ (n : Nat) (p : QStr), p.length ≤ n → markerFree p = true →
      argTokens (p ++ [64, 37, 50]) =
        p.map ArgTok.ch ++ [ArgTok.ch 64, ArgTok.marker 2 [37, 50]] := by
  intro n
  induction n with
  | zero =>
      intro p hl hp
      have h0 : p = [] := List.eq_nil_of_length_eq_zero (Nat.le_zero.mp hl)
      subst h0
      rfl
  | succ n ih =>
      intro p hl hp
      cases p with
      | nil => rfl
      | cons c rest =>
          by_cases hc : c = 37
          · subst hc
            cases rest with
            | nil => rfl
            | cons c1 rest1 =>
                by_cases hL : c1 = 76
                · subst hL
                  cases rest1 with
                  | nil => rfl
                  | cons c2 rest2 =>
                      obtain ⟨hd, hmf⟩ := markerFree_percent_L hp
                      have hrec := ih (c2 :: rest2)
                        (by simp only [List.length_cons] at hl ⊢; omega) hmf
                      simp only [List.cons_append] at hrec ⊢
                      unfold argTokens
                      simp only [if_neg (by omega : ¬ (37 : Nat) ≠ 37),
                        if_pos rfl, hd, Bool.false_eq_true, if_false]
                      rw [hrec]
                      simp [List.map_cons]
                · obtain ⟨hd, hmf⟩ := markerFree_percent hL hp
                  have hrec := ih (c1 :: rest1)
                    (by simp only [List.length_cons] at hl ⊢; omega) hmf
                  simp only [List.cons_append] at hrec ⊢
                  unfold argTokens
                  simp only [if_neg (by omega : ¬ (37 : Nat) ≠ 37),
                    if_neg hL, hd, Bool.false_eq_true, if_false]
                  rw [hrec]
                  simp [List.map_cons]
          · have hmf := markerFree_of_cons hc hp
            have hrec := ih rest
              (by simp only [List.length_cons] at hl; omega) hmf
            simp only [List.cons_append]
            unfold argTokens
            rw [if_pos hc, hrec]
            simp [List.map_cons]

theorem argTokens_mf_append (p : QStr) (hp : markerFree p = true) :
    argTokens (p ++ [64, 37, 50]) =
      p.map ArgTok.ch ++ [ArgTok.ch 64, ArgTok.marker 2 [37, 50]] :=
  argTokens_mf_append_aux p.length p (le_refl _) hp

/-- For a path without place markers the serialized key is literally
`path ++ "@" ++ decimal(size)`. -/
theorem makeCacheKey_markerFree (p : QStr) (hp : markerFree p = true)
    (size : Nat) : makeCacheKey p size = p ++ 64 :: natDecimal size := by
  unfold makeCacheKey
  rw [argSubst_template]
  unfold argSubst
  simp only [argTokens_mf_append p hp, minMarker_ch_append,
    renderTokens_ch_append]
  simp [minMarker, renderTokens]

/-- Splitting around a separator that occurs in neither left part is
unambiguous. -/
theorem append_sep_inj {x : Nat} : ∀ {l1 l2 t1 t2 : List Nat},
    x ∉ l1 → x ∉ l2 → l1 ++ x :: t1 = l2 ++ x :: t2 → l1 = l2 ∧ t1 = t2 := by
  intro l1
  induction l1 with
  | nil =>
      intro l2 t1 t2 h1 h2 heq
      cases l2 with
      | nil => simpa using heq
      | cons c l2 =>
          exfalso
          simp only [List.nil_append, List.cons_append] at heq
          obtain ⟨hc, hrest⟩ := List.cons.inj heq
          exact h2 (by rw [hc]; exact List.mem_cons_self _ _)
  | cons c l1 ih =>
      intro l2 t1 t2 h1 h2 heq
      cases l2 with
      | nil =>
          exfalso
          simp only [List.cons_append, List.nil_append] at heq
          obtain ⟨hc, hrest⟩ := List.cons.inj heq
          exact h1 (by rw [hc]; exact List.mem_cons_self _ _)
      | cons d l2 =>
          simp only [List.cons_append] at heq
          obtain ⟨hcd, hrest⟩ := List.cons.inj heq
          have hres := ih (fun hm => h1 (List.mem_cons_of_mem _ hm))
            (fun hm => h2 (List.mem_cons_of_mem _ hm)) hrest
          exact ⟨by rw [hcd, hres.1], hres.2⟩

/-- Injectivity of the plain concatenation `path ++ "@" ++ digits`: the
decimal digits contain no at sign, so the final separator disambiguates
even paths that themselves contain at signs. -/
theorem key_concat_inj (p1 p2 : QStr) (s1 s2 : Nat) :
    p1 ++ 64 :: natDecimal s1 = p2 ++ 64 :: natDecimal s2 ↔
      p1 = p2 ∧ s1 = s2 := by
  constructor
  · intro h
    have hrev : (natDecimal s1).reverse ++ 64 :: p1.reverse =
        (natDecimal s2).reverse ++ 64 :: p2.reverse := by
      have := congrArg List.reverse h
      simpa [List.reverse_append] using this
    have hno1 : (64 : Nat) ∉ (natDecimal s1).reverse := fun hm =>
      absurd (natDecimal_lt_64 s1 64 (List.mem_reverse.mp hm)) (by omega)
    have hno2 : (64 : Nat) ∉ (natDecimal s2).reverse := fun hm =>
      absurd (natDecimal_lt_64 s2 64 (List.mem_reverse.mp hm)) (by omega)
    obtain ⟨hd, hp⟩ := append_sep_inj hno1 hno2 hrev
    refine ⟨?_, natDecimal_injective ?_⟩
    · have := congrArg List.reverse hp
      simpa using this
    · have := congrArg List.reverse hd
      simpa using this
  · rintro ⟨rfl, rfl⟩
    rfl

/-- Counterexample to C8 as stated: `QString::arg` substitutes place
markers contained in the path, so the distinct pairs ("%2", 7) and
("7", 7) both serialize to "7@7" — the key is not collision-free over all
(path, size) pairs. -/
theorem c8_cache_key_counterexample :
    makeCacheKey (qstr "%2") 7 = makeCacheKey (qstr "7") 7 ∧
    ¬ (qstr "%2" = qstr "7" ∧ (7 : Nat) = 7) := by decide

/-- C8 (amended): for paths free of `QString::arg` place markers (no `%`
or `%L` followed by a digit), the serialized key `"path@size"` is
collision-free — two such (path, size) pairs produce the same key string
exactly when they are equal. -/
theorem c8_cache_key_injective (p1 p2 : QStr) (s1 s2 : Nat)
    (h1 : markerFree p1 = true) (h2 : markerFree p2 = true) :
    makeCacheKey p1 s1 = makeCacheKey p2 s2 ↔ p1 = p2 ∧ s1 = s2 := by
  rw [makeCacheKey_markerFree p1 h1 s1, makeCacheKey_markerFree p2 h2 s2]
  exact key_concat_inj p1 p2 s1 s2

/-- Witness for C8 (amended): two distinct sizes for the same marker-free
path give distinct keys. -/
theorem c8_cache_key_injective_witness :
    ¬ (makeCacheKey (qstr "a@1") 2 = makeCacheKey (qstr "a@1") 3) := by
  intro h
  have := ((c8_cache_key_injective (qstr "a@1") (qstr "a@1") 2 3
    (by decide) (by decide)).mp h).2
  exact absurd this (by decide)

/-! ### LoadScheduler: `ThumbnailLoadThread` (thumbnailloadthread.cpp)

Sequential interleaving model. `pendingKeys` is `m_pendingKeys`;
`cachedImageKeys` is the key set of the image tier as the scheduler observes
it (`hasImage`); `inFlight` holds the keys of tasks handed to the thread
pool whose `finished` signal has not yet been processed; `submitted` is a
ghost log of every task ever passed to `QThreadPool::start` — the tasks that
get executed. A finish event combines the worker body (`putImage` on
success) with `slotWorkerFinished` (pending removal). `load` returns early
when the image tier holds the key; the pixmap-tier branch of `load` never
schedules and is dropped (a pixmap is only cached after the image is). -/

def qstartsWith : QStr → QStr → Bool
  | [], _ => true
  | _ :: _, [] => false
  | p :: ps, c :: cs => decide (p = c) && qstartsWith ps cs

structure Sched where
  pendingKeys : List Key
  cachedImageKeys : List Key
  inFlight : List Key
  submitted : List Key
deriving DecidableEq, Repr

def initSched : Sched :=
  { pendingKeys := [], cachedImageKeys := [], inFlight := [], submitted := [] }

/-- `ThumbnailLoadThread::load` (lines 88-110) followed by `scheduleTask`
(lines 199-228): return immediately on a cache hit; otherwise schedule
unless the key is already pending. -/
def loadEvent (s : Sched) (path : QStr) (size : Nat) : Sched :=
  if makeCacheKey path size ∈ s.cachedImageKeys then s
  else if makeCacheKey path size ∈ s.pendingKeys then s
  else { s with pendingKeys := makeCacheKey path size :: s.pendingKeys,
                inFlight := makeCacheKey path size :: s.inFlight,
                submitted := makeCacheKey path size :: s.submitted }

/-- Worker completion: `ThumbnailWorker::run` caches the image on success
(lines 28-45) and `slotWorkerFinished` (lines 230-249) removes the key from
the pending set. -/
def finishEvent (s : Sched) (path : QStr) (size : Nat) (success : Bool) :
    Sched :=
  { s with pendingKeys := s.pendingKeys.erase (makeCacheKey path size),
           inFlight := s.inFlight.erase (makeCacheKey path size),
           cachedImageKeys :=
             if success = true ∧ makeCacheKey path size ∉ s.cachedImageKeys
             then makeCacheKey path size :: s.cachedImageKeys
             else s.cachedImageKeys }

/-- `ThumbnailLoadThread::cancel` (lines 124-140): drop from the pending set
every key starting with `filePath + "@"`; the thread pool is not touched, so
in-flight tasks are unaffected. -/
def cancelEvent (s : Sched) (path : QStr) : Sched :=
  { s with pendingKeys :=
      s.pendingKeys.filter (fun k => ! qstartsWith (path ++ [64]) k) }

inductive SchedEvent where
  | load (path : QStr) (size : Nat)
  | finish (path : QStr) (size : Nat) (success : Bool)
  | cancel (path : QStr)
deriving DecidableEq, Repr

def schedStep (s : Sched) : SchedEvent → Sched
  | .load p n => loadEvent s p n
  | .finish p n ok => finishEvent s p n ok
  | .cancel p => cancelEvent s p

def runSchedFrom (s : Sched) (evs : List SchedEvent) : Sched :=
  evs.foldl schedStep s

def runSched (evs : List SchedEvent) : Sched := runSchedFrom initSched evs

def isLoad : SchedEvent → Bool
  | .load _ _ => true
  | _ => false

def isCancel : SchedEvent → Bool
  | .cancel _ => true
  | _ => false

/-- The deduplication invariant of the scheduler state: the pending set and
the in-flight task set hold exactly the same keys, each at most once. -/
def schedInv (s : Sched) : Prop :=
  (∀ k, k ∈ s.pendingKeys ↔ k ∈ s.inFlight) ∧
    s.pendingKeys.Nodup ∧ s.inFlight.Nodup

theorem mem_erase_iff_key {l : List Key} {a k : Key} (hnd : l.Nodup) :
    a ∈ l.erase k ↔ a ≠ k ∧ a ∈ l := by
  constructor
  · intro h
    exact ⟨ne_of_mem_erase_key hnd h, mem_of_mem_erase_key h⟩
  · rintro ⟨hne, hmem⟩
    exact (List.mem_erase_of_ne hne).mpr hmem

theorem schedInv_step (s : Sched) (e : SchedEvent) (h : schedInv s)
    (hnc : isCancel e = false) : schedInv (schedStep s e) := by
  obtain ⟨hiff, hnd1, hnd2⟩ := h
  cases e with
  | load p n =>
      show schedInv (loadEvent s p n)
      unfold loadEvent
      split
      · exact ⟨hiff, hnd1, hnd2⟩
      · split
        · exact ⟨hiff, hnd1, hnd2⟩
        next hpend =>
            refine ⟨?_, ?_, ?_⟩
            · intro k
              simp only [List.mem_cons]
              rw [hiff k]
            · exact List.Nodup.cons hpend hnd1
            · exact List.Nodup.cons (fun hm => hpend ((hiff _).mpr hm)) hnd2
  | finish p n ok =>
      show schedInv (finishEvent s p n ok)
      unfold finishEvent
      refine ⟨?_, nodup_erase_key _ hnd1, nodup_erase_key _ hnd2⟩
      intro k
      rw [mem_erase_iff_key hnd1, mem_erase_iff_key hnd2, hiff k]
  | cancel p => simp [isCancel] at hnc

theorem schedInv_runFrom (s : Sched) (evs : List SchedEvent)
    (h : schedInv s) (hnc : ∀ e ∈ evs, isCancel e = false) :
    schedInv (runSchedFrom s evs) := by
  induction evs generalizing s with
  | nil => exact h
  | cons e rest ih =>
      exact ih _ (schedInv_step s e h (hnc e (by simp)))
        (fun x hx => hnc x (List.mem_cons_of_mem _ hx))

theorem runSched_append (evs : List SchedEvent) (e : SchedEvent) :
    runSched (evs ++ [e]) = schedStep (runSched evs) e := by
  simp [runSched, runSchedFrom, List.foldl_append]

theorem loadEvent_cached {s : Sched} {p : QStr} {n : Nat}
    (hc : makeCacheKey p n ∈ s.cachedImageKeys) : loadEvent s p n = s := by
  unfold loadEvent; rw [if_pos hc]

theorem loadEvent_pending {s : Sched} {p : QStr} {n : Nat}
    (hc : makeCacheKey p n ∉ s.cachedImageKeys)
    (hp : makeCacheKey p n ∈ s.pendingKeys) : loadEvent s p n = s := by
  unfold loadEvent; rw [if_neg hc, if_pos hp]

theorem loadEvent_fresh {s : Sched} {p : QStr} {n : Nat}
    (hc : makeCacheKey p n ∉ s.cachedImageKeys)
    (hp : makeCacheKey p n ∉ s.pendingKeys) :
    (loadEvent s p n).pendingKeys = makeCacheKey p n :: s.pendingKeys ∧
    (loadEvent s p n).inFlight = makeCacheKey p n :: s.inFlight ∧
    (loadEvent s p n).submitted = makeCacheKey p n :: s.submitted ∧
    (loadEvent s p n).cachedImageKeys = s.cachedImageKeys := by
  unfold loadEvent; rw [if_neg hc, if_neg hp]
  exact ⟨rfl, rfl, rfl, rfl⟩

/-- In a trace of load events only (no completions, no cancels, starting
from the fresh scheduler), the image cache stays empty, and each key has
been submitted to the pool exactly once if it is pending and zero times
otherwise. -/
theorem loads_only_inv (evs : List SchedEvent)
    (hl : ∀ e ∈ evs, isLoad e = true) :
    (runSched evs).cachedImageKeys = [] ∧
    (∀ k, (runSched evs).submitted.count k =
      if k ∈ (runSched evs).pendingKeys then 1 else 0) ∧
    (∀ (p : QStr) (n : Nat), SchedEvent.load p n ∈ evs →
      makeCacheKey p n ∈ (runSched evs).pendingKeys) := by
  induction evs using List.reverseRecOn with
  | nil =>
      exact ⟨rfl, fun k => by simp [runSched, runSchedFrom, initSched],
        fun p n h => by simp at h⟩
  | append_singleton l e ih =>
      have hl' : ∀ x ∈ l, isLoad x = true := fun x hx =>
        hl x (List.mem_append_left _ hx)
      obtain ⟨ihc, ihcount, ihmem⟩ := ih hl'
      cases e with
      | load p n =>
          rw [runSched_append]
          have hkey : makeCacheKey p n ∉ (runSched l).cachedImageKeys := by
            rw [ihc]; simp
          simp only [schedStep]
          by_cases hp : makeCacheKey p n ∈ (runSched l).pendingKeys
          · simp only [loadEvent_pending hkey hp]
            refine ⟨ihc, ihcount, ?_⟩
            intro q m hqm
            rcases List.mem_append.mp hqm with h | h
            · exact ihmem q m h
            · have hqp : SchedEvent.load q m = SchedEvent.load p n := by
                simpa using h
              obtain ⟨hq, hm⟩ := SchedEvent.load.inj hqp
              rw [hq, hm]
              exact hp
          · obtain ⟨e1, e2, e3, e4⟩ := loadEvent_fresh hkey hp
            refine ⟨by rw [e4]; exact ihc, ?_, ?_⟩
            · intro k
              simp only [e3, e1]
              by_cases hk : k = makeCacheKey p n
              · subst hk
                simp only [List.count_cons, List.mem_cons]
                rw [ihcount (makeCacheKey p n), if_neg hp]
                simp
              · simp only [List.count_cons, List.mem_cons]
                rw [ihcount k]
                have hkb : ¬ (k == makeCacheKey p n) = true := by simpa using hk
                simp [hkb, hk, Ne.symm hk]
            · intro q m hqm
              simp only [e1]
              rcases List.mem_append.mp hqm with h | h
              · exact List.mem_cons_of_mem _ (ihmem q m h)
              · have hqp : SchedEvent.load q m = SchedEvent.load p n := by
                  simpa using h
                obtain ⟨hq, hm⟩ := SchedEvent.load.inj hqp
                rw [hq, hm]
                exact List.mem_cons_self _ _
      | finish p n ok =>
          exfalso
          have := hl (SchedEvent.finish p n ok) (List.mem_append_right _ (by simp))
          simp [isLoad] at this
      | cancel p =>
          exfalso
          have := hl (SchedEvent.cancel p) (List.mem_append_right _ (by simp))
          simp [isLoad] at this

/-- C3 (amended): in the absence of cancellation, a key is in the pending
set exactly when one task for it is in flight (and never more than one);
and any number of load requests for the same uncached key submit exactly
one generation task to the pool. -/
theorem c3_dedup (evs : List SchedEvent)
    (hnc : ∀ e ∈ evs, isCancel e = false) :
    (∀ k, k ∈ (runSched evs).pendingKeys ↔ k ∈ (runSched evs).inFlight) ∧
    (runSched evs).pendingKeys.Nodup ∧
    (runSched evs).inFlight.Nodup ∧
    ((∀ e ∈ evs, isLoad e = true) →
      ∀ (p : QStr) (n : Nat), SchedEvent.load p n ∈ evs →
        (runSched evs).submitted.count (makeCacheKey p n) = 1) := by
  have hinv := schedInv_runFrom initSched evs
    ⟨fun k => Iff.rfl, List.nodup_nil, List.nodup_nil⟩ hnc
  refine ⟨hinv.1, hinv.2.1, hinv.2.2, ?_⟩
  intro hload p n hmem
  obtain ⟨_, hcount, hpend⟩ := loads_only_inv evs hload
  rw [hcount (makeCacheKey p n), if_pos (hpend p n hmem)]

/-- Witness for C3 (amended): two consecutive loads of the same uncached
path at size 1 leave the key pending with exactly one submitted task. -/
theorem c3_dedup_witness :
    (makeCacheKey (qstr "a") 1 ∈
        (runSched [SchedEvent.load (qstr "a") 1,
          SchedEvent.load (qstr "a") 1]).pendingKeys ↔
      makeCacheKey (qstr "a") 1 ∈
        (runSched [SchedEvent.load (qstr "a") 1,
          SchedEvent.load (qstr "a") 1]).inFlight) ∧
    (runSched [SchedEvent.load (qstr "a") 1,
        SchedEvent.load (qstr "a") 1]).submitted.count
      (makeCacheKey (qstr "a") 1) = 1 :=
  ⟨(c3_dedup [SchedEvent.load (qstr "a") 1, SchedEvent.load (qstr "a") 1]
      (by decide)).1 (makeCacheKey (qstr "a") 1),
    (c3_dedup [SchedEvent.load (qstr "a") 1, SchedEvent.load (qstr "a") 1]
      (by decide)).2.2.2 (by decide) (qstr "a") 1 (by decide)⟩

/-- Counterexample to C3 as stated: after load(a,1) followed by cancel(a),
the single worker for key "a@1" is still in flight (the pool is never told
about cancellation) yet the key is no longer in the pending set, so the
claimed "pending iff exactly one worker generating" equivalence fails; a
further load then executes a second generation task for the same uncached
key. -/
theorem c3_cancel_counterexample :
    (runSched [SchedEvent.load (qstr "a") 1,
        SchedEvent.cancel (qstr "a")]).inFlight.count
      (makeCacheKey (qstr "a") 1) = 1 ∧
    makeCacheKey (qstr "a") 1 ∉
      (runSched [SchedEvent.load (qstr "a") 1,
        SchedEvent.cancel (qstr "a")]).pendingKeys ∧
    (runSched [SchedEvent.load (qstr "a") 1, SchedEvent.cancel (qstr "a"),
        SchedEvent.load (qstr "a") 1]).submitted.count
      (makeCacheKey (qstr "a") 1) = 2 := by decide

theorem qstartsWith_subset :
    ∀ (ps s : QStr), qstartsWith ps s = true → ∀ c ∈ ps, c ∈ s := by
  intro ps
  induction ps with
  | nil => intro s h c hc; simp at hc
  | cons p ps ih =>
      intro s h c hc
      cases s with
      | nil => simp [qstartsWith] at h
      | cons c0 cs =>
          simp only [qstartsWith, Bool.and_eq_true, decide_eq_true_eq] at h
          rcases List.mem_cons.mp hc with h1 | h1
          · rw [h1, h.1]
            exact List.mem_cons_self _ _
          · exact List.mem_cons_of_mem _ (ih cs h.2 c h1)

/-- Which serialized keys match the `startsWith(path + "@")` test used by
`cancel`: exactly the keys of the path itself, plus the keys of any other
path that begins with `path + "@"` (the at-sign ambiguity). The digit part
never contains an at sign. -/
theorem qstartsWith_key_iff (path p : QStr) (ds : QStr)
    (hds : (64 : Nat) ∉ ds) :
    qstartsWith (path ++ [64]) (p ++ 64 :: ds) = true ↔
      p = path ∨ qstartsWith (path ++ [64]) p = true := by
  induction path generalizing p with
  | nil =>
      cases p with
      | nil => simp [qstartsWith]
      | cons c ps => simp [qstartsWith]
  | cons a pa ih =>
      cases p with
      | nil =>
          simp only [List.cons_append, List.nil_append, qstartsWith]
          constructor
          · intro h
            simp only [Bool.and_eq_true, decide_eq_true_eq] at h
            exact absurd (qstartsWith_subset _ _ h.2 64 (by simp)) hds
          · intro h
            rcases h with h | h
            · simp at h
            · simp at h
      | cons c pp =>
          simp only [List.cons_append, qstartsWith, Bool.and_eq_true,
            decide_eq_true_eq, List.cons.injEq, List.append_eq]
          rw [ih pp]
          constructor
          · rintro ⟨hac, hor⟩
            rcases hor with h | h
            · exact Or.inl ⟨hac.symm, h⟩
            · exact Or.inr ⟨hac, h⟩
          · rintro (⟨hca, hpp⟩ | ⟨hac, h⟩)
            · exact ⟨hca.symm, Or.inl hpp⟩
            · exact ⟨hac, Or.inr h⟩

/-- C4 (amended): `cancel(path)` removes from the pending set exactly the
keys whose serialized form starts with `path + "@"` — for place-marker-free
paths that means the pending entries of the path itself at every size, but
also those of any other path that literally begins with `path + "@"`; the
in-flight tasks are untouched. -/
theorem c4_cancel_semantics (s : Sched) (path : QStr) :
    (∀ k, k ∈ (cancelEvent s path).pendingKeys ↔
        k ∈ s.pendingKeys ∧ qstartsWith (path ++ [64]) k = false) ∧
    (∀ (p : QStr) (n : Nat), markerFree p = true →
        (qstartsWith (path ++ [64]) (makeCacheKey p n) = true ↔
          p = path ∨ qstartsWith (path ++ [64]) p = true)) ∧
    (cancelEvent s path).inFlight = s.inFlight := by
  refine ⟨?_, ?_, rfl⟩
  · intro k
    simp only [cancelEvent, List.mem_filter, Bool.not_eq_true']
  · intro p n hp
    rw [makeCacheKey_markerFree p hp n]
    exact qstartsWith_key_iff path p (natDecimal n) (fun hm =>
      absurd (natDecimal_lt_64 n 64 hm) (by omega))

/-- Witness for C4 (amended): cancelling path "a" matches the key of the
distinct path "a@1" at size 2, because that key starts with `"a@"`. -/
theorem c4_cancel_semantics_witness :
    qstartsWith (qstr "a" ++ [64]) (makeCacheKey (qstr "a@1") 2) = true :=
  ((c4_cancel_semantics initSched (qstr "a")).2.1 (qstr "a@1") 2
    (by decide)).mpr (Or.inr (by decide))

/-- Counterexample to C4 as stated: with the entry of path "a@1" at size 2
pending, `cancel("a")` removes that entry even though its path differs from
"a" — pending entries for other paths do not all remain. -/
theorem c4_cancel_counterexample :
    makeCacheKey (qstr "a@1") 2 ∈
      (runSched [SchedEvent.load (qstr "a@1") 2]).pendingKeys ∧
    qstr "a@1" ≠ qstr "a" ∧
    makeCacheKey (qstr "a@1") 2 ∉
      (runSched [SchedEvent.load (qstr "a@1") 2,
        SchedEvent.cancel (qstr "a")]).pendingKeys := by decide

/-! ### ThumbnailCreator (thumbnailcreator.cpp)

`QImage` values are the inductive `Img`; the null image is `Option.none` at
the call sites that test `isNull()`. External-library behaviour (MD5, file
mtimes, Qt image decoding, the ffmpeg subprocess) enters through the
`CreatorEnv` oracle record; the repository's control flow around those
calls is translated directly. -/

inductive MediaType where
  | image
  | video
  | audio
  | unknown
deriving DecidableEq, Repr

/-- Decoded raster data, or a procedurally drawn placeholder carrying its
square size and extension label. -/
inductive Img where
  | raster (w h : Nat) (content : Nat)
  | vPlaceholder (size : Nat) (label : QStr)
  | aPlaceholder (size : Nat) (label : QStr)
deriving DecidableEq, Repr

def Img.width : Img → Nat
  | .raster w _ _ => w
  | .vPlaceholder s _ => s
  | .aPlaceholder s _ => s

def Img.height : Img → Nat
  | .raster _ h _ => h
  | .vPlaceholder s _ => s
  | .aPlaceholder s _ => s

/-- `QImage::scaled(t, t, KeepAspectRatio, SmoothTransformation)`:
aspect-preserving fit into a `t`-square. Content and constructor are
preserved; the exact rounded dimensions are not inspected by any claim. -/
def scaleKeepAspect (target : Nat) : Img → Img
  | .raster w h c =>
      if h ≤ w then .raster target (h * target / max w 1) c
      else .raster (w * target / max h 1) target c
  | .vPlaceholder _ l => .vPlaceholder target l
  | .aPlaceholder _ l => .aPlaceholder target l

/-- The segment after the last occurrence of a separator, if any. -/
def afterLast (sep : Nat) : QStr → Option QStr
  | [] => none
  | c :: rest =>
      match afterLast sep rest with
      | some r => some r
      | none => if c = sep then some rest else none

/-- `QFileInfo::fileName`: the part after the last slash. -/
def fileName (p : QStr) : QStr := (afterLast 47 p).getD p

/-- `QFileInfo::suffix`: the part of the file name after the last dot,
empty when there is no dot. -/
def fileSuffix (p : QStr) : QStr := (afterLast 46 (fileName p)).getD []

/-- `QString::toLower`, restricted to ASCII (extensions are ASCII). -/
def toLowerStr (s : QStr) : QStr :=
  s.map (fun c => if 65 ≤ c ∧ c ≤ 90 then c + 32 else c)

/-- `QString::toUpper`, restricted to ASCII. -/
def toUpperStr (s : QStr) : QStr :=
  s.map (fun c => if 97 ≤ c ∧ c ≤ 122 then c - 32 else c)

/-- `ThumbnailCreator::imageExtensions` (thumbnailcreator.cpp:650-656). -/
def imageExtensions : List QStr :=
  [qstr "jpg", qstr "jpeg", qstr "png", qstr "gif", qstr "bmp", qstr "tiff",
   qstr "tif", qstr "webp", qstr "svg", qstr "ico", qstr "pbm", qstr "pgm",
   qstr "ppm", qstr "xbm", qstr "xpm"]

/-- `ThumbnailCreator::videoExtensions` (thumbnailcreator.cpp:658-684). -/
def videoExtensions : List QStr :=
  [qstr "mp4", qstr "m4v", qstr "mkv", qstr "webm", qstr "mov", qstr "avi",
   qstr "wmv", qstr "flv", qstr "3gp", qstr "3g2", qstr "mts", qstr "m2ts",
   qstr "ts", qstr "mpg", qstr "mpeg", qstr "vob", qstr "ogv", qstr "ogm",
   qstr "asf", qstr "wm", qstr "rm", qstr "rmvb", qstr "f4v", qstr "swf",
   qstr "divx", qstr "xvid", qstr "dv", qstr "mxf", qstr "qt", qstr "yuv",
   qstr "m4p", qstr "hevc", qstr "h264", qstr "h265", qstr "265",
   qstr "av1", qstr "ivf", qstr "apng", qstr "mng"]

/-- `ThumbnailCreator::audioExtensions` (thumbnailcreator.cpp:686-691). -/
def audioExtensions : List QStr :=
  [qstr "mp3", qstr "m4a", qstr "wav", qstr "flac", qstr "ogg", qstr "aac",
   qstr "wma"]

/-- `ThumbnailCreator::getMediaType` (thumbnailcreator.cpp:616-641):
classify by lower-cased extension. -/
def getMediaType (p : QStr) : MediaType :=
  if toLowerStr (fileSuffix p) ∈ imageExtensions then .image
  else if toLowerStr (fileSuffix p) ∈ videoExtensions then .video
  else if toLowerStr (fileSuffix p) ∈ audioExtensions then .audio
  else .unknown

/-- An on-disk thumbnail record: modification time and decode result
(`none` models a corrupt/undecodable file). -/
structure DiskRec where
  mtime : Nat
  decode : Option Img
deriving DecidableEq, Repr

/-- Outcome oracle for one `extractVideoFrameWithFFmpeg` invocation:
whether ffmpeg was found, whether each attempt finished within its timeout
and its exit code, and the decode of the temporary frame file. -/
structure FFmpegOutcome where
  found : Bool
  primaryFinished : Bool
  primaryExit : Int
  fallbackFinished : Bool
  fallbackExit : Int
  tempDecode : Option (Nat × Nat × Nat)
deriving DecidableEq, Repr

/-- Environment of one `ThumbnailCreator`: its configuration
(`m_thumbnailSize`, `m_useDiskCache`), and oracles for the external world —
the cache directory location, MD5 hashing, the disk contents, source-file
mtimes, the clock, the image-decode pipeline (`createImageThumbnail`), and
ffmpeg. -/
structure CreatorEnv where
  thumbnailSize : Nat
  useDiskCache : Bool
  cacheDirLoc : QStr
  md5hex : QStr → QStr
  disk : QStr → Option DiskRec
  sourceMTime : QStr → Nat
  now : Nat
  imageGen : QStr → Option (Nat × Nat × Nat)
  ffmpeg : FFmpegOutcome

/-- `ThumbnailCreator::thumbnailCacheDir` (lines 264-272). -/
def thumbnailCacheDir (env : CreatorEnv) : QStr :=
  if env.cacheDirLoc = [] then [] else env.cacheDirLoc ++ qstr "/thumbnails"

/-- `ThumbnailCreator::diskCachePath` (lines 245-262): cache dir, a size
bucket (`"normal"` for sizes up to 128, else `"large"`), and the MD5 hex of
the file URI (`QUrl::fromLocalFile(path).toString()`). -/
def diskCachePath (env : CreatorEnv) (filePath : QStr) : QStr :=
  if thumbnailCacheDir env = [] then []
  else
    thumbnailCacheDir env ++ [47] ++
      (if env.thumbnailSize ≤ 128 then qstr "normal" else qstr "large") ++
      [47] ++ env.md5hex (qstr "file://" ++ filePath) ++ qstr ".png"

/-- `ThumbnailCreator::loadFromDiskCache` (lines 205-227). Returns the
decoded record (`none` on miss or corrupt record), the disk contents
afterwards, and whether a stale record was removed (`QFile::remove`). -/
def loadFromDiskCache (env : CreatorEnv) (filePath : QStr) :
    Option Img × (QStr → Option DiskRec) × Bool :=
  if diskCachePath env filePath = [] then (none, env.disk, false)
  else
    match env.disk (diskCachePath env filePath) with
    | none => (none, env.disk, false)
    | some r =>
        if r.mtime < env.sourceMTime filePath then
          (none,
            fun q => if q = diskCachePath env filePath then none
              else env.disk q,
            true)
        else (r.decode, env.disk, false)

/-- `ThumbnailCreator::saveToDiskCache` (lines 229-243): write the PNG
record, stamped with the current time; the saved file decodes back to the
saved image (PNG round-trips losslessly). -/
def saveToDiskCache (env : CreatorEnv) (disk : QStr → Option DiskRec)
    (filePath : QStr) (t : Img) : (QStr → Option DiskRec) × Bool :=
  if diskCachePath env filePath = [] then (disk, false)
  else
    (fun q => if q = diskCachePath env filePath
       then some { mtime := env.now, decode := some t } else disk q,
     true)

/-- `ThumbnailCreator::createVideoPlaceholder` (lines 475-521): a drawn
square placeholder labelled with the uppercased file extension. -/
def createVideoPlaceholder (size : Nat) (filePath : QStr) : Img :=
  .vPlaceholder size (toUpperStr (fileSuffix filePath))

/-- `ThumbnailCreator::createAudioPlaceholder` (lines 523-594). -/
def createAudioPlaceholder (size : Nat) (filePath : QStr) : Img :=
  .aPlaceholder size (toUpperStr (fileSuffix filePath))

/-- `ThumbnailCreator::extractVideoFrameWithFFmpeg` (lines 288-368): the
primary 2-second-seek attempt (5 s timeout; a timeout kills the process and
fails the extraction), a fallback 0.1-second-seek attempt (3 s timeout)
only when the primary exits non-zero, then decoding of the temporary frame
file and scaling to the exact target size. -/
def extractVideoFrameWithFFmpeg (env : CreatorEnv) : Option Img :=
  if env.ffmpeg.found = false then none
  else if env.ffmpeg.primaryFinished = false then none
  else if env.ffmpeg.primaryExit ≠ 0 ∧
      ¬ (env.ffmpeg.fallbackFinished = true ∧ env.ffmpeg.fallbackExit = 0)
  then none
  else
    match env.ffmpeg.tempDecode with
    | none => none
    | some (w, h, c) =>
        some (if w ≠ env.thumbnailSize ∨ h ≠ env.thumbnailSize
              then scaleKeepAspect env.thumbnailSize (.raster w h c)
              else .raster w h c)

/-- `ThumbnailCreator::createVideoThumbnail` (lines 274-286): extracted
frame, or the placeholder on failure. -/
def createVideoThumbnail (env : CreatorEnv) (filePath : QStr) : Img :=
  match extractVideoFrameWithFFmpeg env with
  | some t => t
  | none => createVideoPlaceholder env.thumbnailSize filePath

/-- The per-media-type dispatch of `create` (lines 90-103). The image
branch (`createImageThumbnail`, a pipeline of external Qt decode calls) is
the `imageGen` oracle. -/
def generateThumbnail (env : CreatorEnv) (filePath : QStr) : Option Img :=
  match getMediaType filePath with
  | .image =>
      match env.imageGen filePath with
      | some (w, h, c) => some (.raster w h c)
      | none => none
  | .video => some (createVideoThumbnail env filePath)
  | .audio => some (createAudioPlaceholder env.thumbnailSize filePath)
  | .unknown => none

/-- What one `create` call produced: the returned image, the disk contents
afterwards, and whether it removed a stale record / wrote a fresh one. -/
structure CreateOutcome where
  result : Option Img
  disk : QStr → Option DiskRec
  removedStale : Bool
  savedRecord : Bool

/-- Step 3 of `create` (lines 110-116): scale down, never up. -/
def finalScale (env : CreatorEnv) (t : Img) : Img :=
  if env.thumbnailSize < t.width ∨ env.thumbnailSize < t.height
  then scaleKeepAspect env.thumbnailSize t else t

/-- Final steps of `create` (lines 105-123): downscale-only to the target
size, then write-back to the disk cache. -/
def createFinalize (env : CreatorEnv) (filePath : QStr)
    (disk1 : QStr → Option DiskRec) (removed : Bool) (t : Img) :
    CreateOutcome :=
  if env.useDiskCache then
    ⟨some (finalScale env t),
      (saveToDiskCache env disk1 filePath (finalScale env t)).1, removed,
      (saveToDiskCache env disk1 filePath (finalScale env t)).2⟩
  else ⟨some (finalScale env t), disk1, removed, false⟩

/-- Steps 1-2 of `create` after the disk-cache lookup (lines 76-107). -/
def createAfterCache (env : CreatorEnv) (filePath : QStr)
    (ld : Option Img × (QStr → Option DiskRec) × Bool) : CreateOutcome :=
  match ld with
  | (some img, disk1, removed) => ⟨some img, disk1, removed, false⟩
  | (none, disk1, removed) =>
      match generateThumbnail env filePath with
      | none => ⟨none, disk1, removed, false⟩
      | some t => createFinalize env filePath disk1 removed t

/-- `ThumbnailCreator::create` (lines 70-124). -/
def create (env : CreatorEnv) (filePath : QStr) : CreateOutcome :=
  if filePath = [] then ⟨none, env.disk, false, false⟩
  else
    createAfterCache env filePath
      (if env.useDiskCache then loadFromDiskCache env filePath
       else (none, env.disk, false))

/-- The environment with the record for this file deleted from disk. -/
def removeRecord (env : CreatorEnv) (filePath : QStr) : CreatorEnv :=
  { env with disk := fun q =>
      if q = diskCachePath env filePath then none else env.disk q }

theorem diskCachePath_ne_nil (env : CreatorEnv) (filePath : QStr)
    (hdir : env.cacheDirLoc ≠ []) : diskCachePath env filePath ≠ [] := by
  unfold diskCachePath thumbnailCacheDir
  rw [if_neg hdir]
  rw [if_neg (by simp [qstr])]
  simp [qstr]

theorem loadFromDiskCache_stale {env : CreatorEnv} {filePath : QStr}
    {r : DiskRec} (hpath : diskCachePath env filePath ≠ [])
    (hrec : env.disk (diskCachePath env filePath) = some r)
    (hstale : r.mtime < env.sourceMTime filePath) :
    loadFromDiskCache env filePath =
      (none, (removeRecord env filePath).disk, true) := by
  unfold loadFromDiskCache
  rw [if_neg hpath, hrec]
  dsimp only
  rw [if_pos hstale]
  rfl

theorem loadFromDiskCache_fresh {env : CreatorEnv} {filePath : QStr}
    {r : DiskRec} (hpath : diskCachePath env filePath ≠ [])
    (hrec : env.disk (diskCachePath env filePath) = some r)
    (hfresh : ¬ r.mtime < env.sourceMTime filePath) :
    loadFromDiskCache env filePath = (r.decode, env.disk, false) := by
  unfold loadFromDiskCache
  rw [if_neg hpath, hrec]
  dsimp only
  rw [if_neg hfresh]

theorem loadFromDiskCache_miss {env : CreatorEnv} {filePath : QStr}
    (hrec : env.disk (diskCachePath env filePath) = none) :
    loadFromDiskCache env filePath = (none, env.disk, false) := by
  unfold loadFromDiskCache
  split
  · rfl
  · rw [hrec]

theorem loadFromDiskCache_removed (env : CreatorEnv) (filePath : QStr)
    (hpath : diskCachePath env filePath ≠ []) :
    loadFromDiskCache (removeRecord env filePath) filePath =
      (none, (removeRecord env filePath).disk, false) := by
  have hdp : diskCachePath (removeRecord env filePath) filePath =
      diskCachePath env filePath := rfl
  unfold loadFromDiskCache
  rw [hdp, if_neg hpath]
  have hdisk : (removeRecord env filePath).disk
      (diskCachePath env filePath) = none := by
    simp [removeRecord]
  rw [hdisk]

theorem create_eq (env : CreatorEnv) (filePath : QStr) (h : filePath ≠ [])
    (hdc : env.useDiskCache = true) :
    create env filePath =
      createAfterCache env filePath (loadFromDiskCache env filePath) := by
  unfold create
  rw [if_neg h, if_pos hdc]

theorem create_miss_eq (env : CreatorEnv) (filePath : QStr)
    (h : filePath ≠ [])
    (hrec : env.disk (diskCachePath env filePath) = none) :
    create env filePath =
      createAfterCache env filePath (none, env.disk, false) := by
  unfold create
  rw [if_neg h]
  by_cases hdc : env.useDiskCache = true
  · rw [if_pos hdc, loadFromDiskCache_miss hrec]
  · rw [if_neg hdc]

theorem createFinalize_result (env : CreatorEnv) (filePath : QStr)
    (d : QStr → Option DiskRec) (rm : Bool) (t : Img) :
    (createFinalize env filePath d rm t).result =
      some (finalScale env t) := by
  unfold createFinalize
  split <;> rfl

theorem createFinalize_removed (env : CreatorEnv) (filePath : QStr)
    (d : QStr → Option DiskRec) (rm : Bool) (t : Img) :
    (createFinalize env filePath d rm t).removedStale = rm := by
  unfold createFinalize
  split <;> rfl

/-- C6: a disk record is honoured only when it is not older than the source
file. A stale record is removed and the result is exactly what a run
without the record would produce (regeneration); a fresh, decodable record
is returned directly with no removal, no write-back, and no dependence on
the generation oracles. -/
theorem c6_disk_cache_freshness (env : CreatorEnv) (filePath : QStr)
    (hfp : filePath ≠ []) (hdc : env.useDiskCache = true)
    (hdir : env.cacheDirLoc ≠ []) (r : DiskRec)
    (hrec : env.disk (diskCachePath env filePath) = some r) :
    (r.mtime < env.sourceMTime filePath →
      (create env filePath).removedStale = true ∧
      (create env filePath).result =
        (create (removeRecord env filePath) filePath).result) ∧
    (¬ r.mtime < env.sourceMTime filePath →
      ∀ img, r.decode = some img →
        create env filePath =
          { result := some img, disk := env.disk,
            removedStale := false, savedRecord := false }) := by
  have hpath := diskCachePath_ne_nil env filePath hdir
  constructor
  · intro hstale
    have hload := loadFromDiskCache_stale hpath hrec hstale
    have hload2 := loadFromDiskCache_removed env filePath hpath
    rw [create_eq env filePath hfp hdc, hload,
      create_eq (removeRecord env filePath) filePath hfp hdc, hload2]
    constructor
    · cases hg : generateThumbnail env filePath with
      | none => simp [createAfterCache, hg]
      | some t => simp [createAfterCache, hg, createFinalize_removed]
    · cases hg : generateThumbnail env filePath with
      | none =>
          have hg2 : generateThumbnail (removeRecord env filePath)
              filePath = none := hg
          simp [createAfterCache, hg, hg2]
      | some t =>
          have hg2 : generateThumbnail (removeRecord env filePath)
              filePath = some t := hg
          have hfs : finalScale (removeRecord env filePath) t =
              finalScale env t := rfl
          simp only [createAfterCache, hg, hg2, createFinalize_result, hfs]
  · intro hfresh img himg
    have hload := loadFromDiskCache_fresh hpath hrec hfresh
    rw [create_eq env filePath hfp hdc, hload, himg]
    rfl

/-- Concrete environment for the C6 witness: every cache path holds a
record with mtime 7, decoding to a 10 by 10 raster; the source mtime is 3
(record fresh). -/
def c6Env : CreatorEnv :=
  { thumbnailSize := 256, useDiskCache := true, cacheDirLoc := qstr "/c",
    md5hex := fun _ => qstr "h",
    disk := fun _ => some { mtime := 7, decode := some (Img.raster 10 10 5) },
    sourceMTime := fun _ => 3, now := 9,
    imageGen := fun _ => none,
    ffmpeg := ⟨false, false, 0, false, 0, none⟩ }

/-- Witness for C6: with a fresh decodable record, `create` returns it
directly, removing and writing nothing. -/
theorem c6_disk_cache_freshness_witness :
    create c6Env (qstr "x.jpg") =
      { result := some (Img.raster 10 10 5), disk := c6Env.disk,
        removedStale := false, savedRecord := false } :=
  (c6_disk_cache_freshness c6Env (qstr "x.jpg") (by decide) rfl (by decide)
    { mtime := 7, decode := some (Img.raster 10 10 5) } rfl).2
    (by decide) (Img.raster 10 10 5) rfl

theorem extract_fallback_success (env : CreatorEnv)
    (hfound : env.ffmpeg.found = true)
    (hpf : env.ffmpeg.primaryFinished = true)
    (hff : env.ffmpeg.fallbackFinished = true)
    (hfe : env.ffmpeg.fallbackExit = 0)
    (w h c : Nat) (htmp : env.ffmpeg.tempDecode = some (w, h, c)) :
    extractVideoFrameWithFFmpeg env =
      some (if w ≠ env.thumbnailSize ∨ h ≠ env.thumbnailSize
            then scaleKeepAspect env.thumbnailSize (Img.raster w h c)
            else Img.raster w h c) := by
  unfold extractVideoFrameWithFFmpeg
  rw [hfound, hpf, htmp]
  simp [hff, hfe]

theorem extract_failure (env : CreatorEnv)
    (hfail : env.ffmpeg.primaryFinished = false ∨
      (env.ffmpeg.primaryExit ≠ 0 ∧
        ¬ (env.ffmpeg.fallbackFinished = true ∧
           env.ffmpeg.fallbackExit = 0))) :
    extractVideoFrameWithFFmpeg env = none := by
  unfold extractVideoFrameWithFFmpeg
  rcases hfail with h | h
  · rw [h]
    simp
  · by_cases hpf : env.ffmpeg.primaryFinished = false
    · simp [hpf]
    · simp [hpf, h]

theorem generateThumbnail_video (env : CreatorEnv) (filePath : QStr)
    (hvid : getMediaType filePath = MediaType.video) :
    generateThumbnail env filePath =
      some (createVideoThumbnail env filePath) := by
  unfold generateThumbnail
  rw [hvid]

theorem scaleKeepAspect_raster (s w h c : Nat) :
    ∃ w2 h2 c2, scaleKeepAspect s (Img.raster w h c) = Img.raster w2 h2 c2 := by
  show ∃ w2 h2 c2,
    (if h ≤ w then Img.raster s (h * s / max w 1) c
     else Img.raster (w * s / max h 1) s c) = Img.raster w2 h2 c2
  split
  · exact ⟨_, _, _, rfl⟩
  · exact ⟨_, _, _, rfl⟩

theorem finalScale_raster (env : CreatorEnv) (w h c : Nat) :
    ∃ w2 h2 c2, finalScale env (Img.raster w h c) = Img.raster w2 h2 c2 := by
  unfold finalScale
  split
  · exact scaleKeepAspect_raster env.thumbnailSize w h c
  · exact ⟨_, _, _, rfl⟩

theorem finalScale_ite_raster (env : CreatorEnv) (P : Prop) [Decidable P]
    (w h c w0 h0 c0 : Nat) :
    ∃ w2 h2 c2,
      finalScale env
          (if P then scaleKeepAspect env.thumbnailSize (Img.raster w h c)
           else Img.raster w0 h0 c0) =
        Img.raster w2 h2 c2 := by
  split
  · obtain ⟨w1, h1, c1, he⟩ :=
      scaleKeepAspect_raster env.thumbnailSize w h c
    rw [he]
    exact finalScale_raster env w1 h1 c1
  · exact finalScale_raster env w0 h0 c0

/-- C7: for a video file with no disk record, if the primary extraction
finishes but exits non-zero while the fallback extraction succeeds and its
frame decodes, `create` returns a decoded raster frame — never a
placeholder; if the primary attempt times out, or both attempts fail,
`create` returns the drawn placeholder labelled with the uppercased file
extension. -/
theorem c7_video_fallback (env : CreatorEnv) (filePath : QStr)
    (hfp : filePath ≠ []) (hvid : getMediaType filePath = MediaType.video)
    (hrec : env.disk (diskCachePath env filePath) = none)
    (hfound : env.ffmpeg.found = true) :
    (env.ffmpeg.primaryFinished = true →
      env.ffmpeg.fallbackFinished = true → env.ffmpeg.fallbackExit = 0 →
      ∀ w h c, env.ffmpeg.tempDecode = some (w, h, c) →
        ∃ w2 h2 c2,
          (create env filePath).result = some (Img.raster w2 h2 c2)) ∧
    (env.ffmpeg.primaryFinished = false ∨
        (env.ffmpeg.primaryExit ≠ 0 ∧
          ¬ (env.ffmpeg.fallbackFinished = true ∧
             env.ffmpeg.fallbackExit = 0)) →
      (create env filePath).result =
        some (createVideoPlaceholder env.thumbnailSize filePath)) := by
  rw [create_miss_eq env filePath hfp hrec]
  constructor
  · intro hpf hff hfe w h c htmp
    have hex := extract_fallback_success env hfound hpf hff hfe w h c htmp
    have hvt : createVideoThumbnail env filePath =
        (if w ≠ env.thumbnailSize ∨ h ≠ env.thumbnailSize
         then scaleKeepAspect env.thumbnailSize (Img.raster w h c)
         else Img.raster w h c) := by
      unfold createVideoThumbnail
      rw [hex]
    simp only [createAfterCache, generateThumbnail_video env filePath hvid,
      hvt, createFinalize_result]
    obtain ⟨w2, h2, c2, he⟩ := finalScale_ite_raster env
      (w ≠ env.thumbnailSize ∨ h ≠ env.thumbnailSize) w h c w h c
    exact ⟨w2, h2, c2, by rw [he]⟩
  · intro hfail
    have hex := extract_failure env hfail
    have hvt : createVideoThumbnail env filePath =
        createVideoPlaceholder env.thumbnailSize filePath := by
      unfold createVideoThumbnail
      rw [hex]
    simp only [createAfterCache, generateThumbnail_video env filePath hvid,
      hvt, createFinalize_result]
    unfold finalScale createVideoPlaceholder
    simp [Img.width, Img.height]

/-- Concrete environment for the C7 witness: ffmpeg present, primary
attempt exits 1, fallback succeeds with a decodable 40 by 30 frame. -/
def c7Env : CreatorEnv :=
  { thumbnailSize := 64, useDiskCache := true, cacheDirLoc := qstr "/c",
    md5hex := fun _ => qstr "h", disk := fun _ => none,
    sourceMTime := fun _ => 0, now := 1,
    imageGen := fun _ => none,
    ffmpeg := ⟨true, true, 1, true, 0, some (40, 30, 9)⟩ }

/-- Witness for C7: in the fallback-succeeds scenario the result is a
decoded raster frame. -/
theorem c7_video_fallback_witness :
    ∃ w2 h2 c2, (create c7Env (qstr "movie.mp4")).result =
      some (Img.raster w2 h2 c2) :=
  (c7_video_fallback c7Env (qstr "movie.mp4") (by decide) (by decide)
    rfl rfl).1 rfl rfl rfl 40 30 9 rfl

/-- The same creator reconfigured to another target size
(`setThumbnailSize`). -/
def withSize (env : CreatorEnv) (s : Nat) : CreatorEnv :=
  { env with thumbnailSize := s }

/-- The same creator environment over different disk contents. -/
def withDisk (env : CreatorEnv) (d : QStr → Option DiskRec) : CreatorEnv :=
  { env with disk := d }

/-- Concrete environment for the C10 scenario: no disk records, image
decoding yields a 128 by 128 raster, source mtime 3, clock 5. -/
def c10Env : CreatorEnv :=
  { thumbnailSize := 128, useDiskCache := true, cacheDirLoc := qstr "/c",
    md5hex := fun _ => qstr "h", disk := fun _ => none,
    sourceMTime := fun _ => 3, now := 5,
    imageGen := fun _ => some (128, 128, 7),
    ffmpeg := ⟨false, false, 0, false, 0, none⟩ }

/-- C10: the disk-cache path depends only on the file and the size bucket
(sizes up to 128 map to "normal", larger to "large"), not on the exact
target size; consequently a `create` at target size 64 can return, through
the disk fast path, the 128 by 128 thumbnail written earlier by a `create`
at target size 128 for the same file — dimensions exceeding the request. -/
theorem c10_disk_cache_bucket :
    (∀ (env : CreatorEnv) (filePath : QStr) (s1 s2 : Nat),
        (s1 ≤ 128 ↔ s2 ≤ 128) →
        diskCachePath (withSize env s1) filePath =
          diskCachePath (withSize env s2) filePath) ∧
    ((create (withSize (withDisk c10Env
          (create c10Env (qstr "photo.jpg")).disk) 64)
        (qstr "photo.jpg")).result = some (Img.raster 128 128 7) ∧
      64 < (Img.raster 128 128 7).width) := by
  constructor
  · intro env fp s1 s2 hiff
    have hdir : thumbnailCacheDir (withSize env s1) =
        thumbnailCacheDir (withSize env s2) := rfl
    unfold diskCachePath
    rw [hdir]
    simp only [withSize]
    by_cases h1 : s1 ≤ 128
    · rw [if_pos h1, if_pos (hiff.mp h1)]
    · rw [if_neg h1, if_neg (fun hc => h1 (hiff.mpr hc))]
  · exact ⟨by decide, by decide⟩

/-- Witness for C10: sizes 64 and 128 are in the same bucket, so the disk
cache path of the same file coincides. -/
theorem c10_disk_cache_bucket_witness :
    diskCachePath (withSize c10Env 64) (qstr "photo.jpg") =
      diskCachePath (withSize c10Env 128) (qstr "photo.jpg") :=
  c10_disk_cache_bucket.1 c10Env (qstr "photo.jpg") 64 128 (by decide)
